import Mathlib

/-!
# Verification of the incremental knowledge-graph state engine

Shallow embedding of the graph-store / layout / highlight / viewport logic of
`KnowledgeGraphConstruction/static/js/single_qa.js` and the graph-preview logic
of `KnowledgeGraphConstruction/static/js/runs_qa_generation.js`.

Modelling conventions used throughout:
* JavaScript strings are `String`; an absent (`undefined`) string-valued field is
  `Option.none` when the code distinguishes "key absent" from "key present"
  (`Object.assign` semantics), and the empty string `""` when the code only ever
  uses the value through truthiness (`a || b`).
* `a || b` on strings is `jsOrS` / `jsOr` (the empty string is falsy).
* Node positions are generic: store operations never look at coordinates, so the
  store is parametrised by a coordinate type `α` and an initial-placement
  function `place index total`.  This mirrors the fact that `updateGraph`
  delegates coordinates to `createPositionedNode` and otherwise preserves them.
* The one DOM input read by the store logic — the `initial-entity` text field —
  is the explicit parameter `entity` (already trimmed; `""` when blank).
-/

namespace KG

/-- JS `a || b` for strings (the empty string is falsy). -/
def jsOrS (a b : String) : String := if a = "" then b else a

/-- JS `a || b` where `a` is a possibly-absent string field. -/
def jsOr (a : Option String) (b : String) : String :=
  match a with
  | none => b
  | some s => if s = "" then b else s

/-- Helper for `jsIncludes`: does `sub` occur as a contiguous run of `s`? -/
def hasSubstr (sub : List Char) : List Char → Bool
  | [] => sub.isEmpty
  | c :: rest => sub.isPrefixOf (c :: rest) || hasSubstr sub rest

/-- JS `s.includes(sub)` (substring containment; `''` is contained in
everything). -/
def jsIncludes (s sub : String) : Bool := hasSubstr sub.toList s.toList

/-- In-place update of the element at position `i`, as done by mutating the
object returned by `Array.prototype.find` / indexing. -/
def modifyAt (f : β → β) : Nat → List β → List β
  | _, [] => []
  | 0, b :: bs => f b :: bs
  | k + 1, b :: bs => b :: modifyAt f k bs

/-- Index of the first element satisfying `p` (the index of the element JS
`Array.prototype.find` returns). -/
def findIdxO (p : β → Bool) : List β → Option Nat
  | [] => none
  | b :: bs => if p b then some 0 else (findIdxO p bs).map (fun k => k + 1)

/-! ## Data model (`single_qa.js`) -/

/-- An incoming node record of a `graph_update` payload.  Fields other than
`id`/`name` may be absent (`none`).  `expansion_order` is a JS number. -/
structure NodeRec where
  id : String
  name : String
  type : Option String := none
  description : Option String := none
  group : Option Nat := none
  expansion_status : Option String := none
  expansion_order : Option Int := none
deriving DecidableEq, Repr

/-- A node held in `currentGraphData.nodes` after creation/merge: all attribute
fields are materialised, and the node carries its layout position. -/
structure StoreNode (α : Type) where
  id : String
  name : String
  type : String
  description : String
  group : Nat
  expansion_status : String
  expansion_order : Option Int
  x : α
  y : α
deriving DecidableEq, Repr

/-- An incoming link record (field aliases as used by `single_qa.js`:
`source_id || source`, `target_id || target`, `relation || relationship`).
Absent fields are `""`. -/
structure LinkRec where
  source : String := ""
  target : String := ""
  source_id : String := ""
  target_id : String := ""
  relation : String := ""
  relationship : String := ""
deriving DecidableEq, Repr

/-- A link held in `currentGraphData.links` after normalisation. -/
structure StoreLink where
  source : String
  target : String
  source_id : String
  target_id : String
  relation : String
  relationship : String
  id : String
deriving DecidableEq, Repr

/-- One entry of `expansion_info.expansion_nodes`. -/
structure ExpNodeRef where
  id : String
  name : String
deriving DecidableEq, Repr

/-- The transient `expansion_info` carried by an update. -/
structure ExpansionInfo where
  expansion_nodes : List ExpNodeRef
  current_node : Option ExpNodeRef
deriving DecidableEq, Repr

/-- An inbound `graph_update` payload (`nodes?`, `links?`, `expansion_info?`). -/
structure Batch where
  nodes : Option (List NodeRec) := none
  links : Option (List LinkRec) := none
  expansion_info : Option ExpansionInfo := none
deriving DecidableEq, Repr

/-- The store, `currentGraphData`. -/
structure Store (α : Type) where
  nodes : List (StoreNode α)
  links : List StoreLink
deriving DecidableEq, Repr

/-- The empty store (`clearGraph`). -/
def Store.empty (α : Type) : Store α := { nodes := [], links := [] }

/-! ## Node creation and merge (`updateGraph`, incremental branch) -/

/-- Creation of a store node from a record (`createPositionedNode` spread with
the record, then the explicit defaults `type || 'concept'`,
`description || ''`, `group || 0`, `expansion_status || 'normal'`,
`expansion_order`).  `place` stands for `createPositionedNode`'s coordinates. -/
def createStoreNode (place : Nat → Nat → α × α) (r : NodeRec) (index total : Nat) :
    StoreNode α :=
  let p := place index total
  { id := r.id
    name := r.name
    type := jsOr r.type ("concept")
    description := jsOr r.description ("")
    group := (r.group).getD 0
    expansion_status := jsOr r.expansion_status ("normal")
    expansion_order := r.expansion_order
    x := p.1
    y := p.2 }

/-- Merge of a record into an existing node: `Object.assign(existingNode, node)`
(fields present in the record overwrite, absent fields are kept), positions
restored to their old values, then the explicit
`expansion_status = node.expansion_status || 'normal'` and
`expansion_order = node.expansion_order`. -/
def mergeNode (n : StoreNode α) (r : NodeRec) : StoreNode α :=
  { n with
    id := r.id
    name := r.name
    type := (r.type).getD n.type
    description := (r.description).getD n.description
    group := (r.group).getD n.group
    expansion_status := jsOr r.expansion_status ("normal")
    expansion_order := r.expansion_order }

/-- Model of `currentGraphData.nodes.find(n => n.id === node.id)` followed by
in-place mutation: merge the record into the first node carrying its id. -/
def mergeFirst : List (StoreNode α) → NodeRec → List (StoreNode α)
  | [], _ => []
  | n :: ns, r => if n.id = r.id then mergeNode n r :: ns else n :: mergeFirst ns r

/-- One step of the incremental node loop: ids in the snapshot `E` are merged
into the first matching node, unseen ids are created at
`index = nodes.length, total = nodes.length + 1`. -/
def stepFn (place : Nat → Nat → α × α) (E : List String)
    (acc : List (StoreNode α)) (r : NodeRec) : List (StoreNode α) :=
  if r.id ∈ E then mergeFirst acc r
  else acc ++ [createStoreNode place r acc.length (acc.length + 1)]

/-- Ids of the records the loop will create (those whose id is not in the
snapshot `E`), in order. -/
def newIds (E : List String) : List NodeRec → List String
  | [] => []
  | r :: rest => if r.id ∈ E then newIds E rest else r.id :: newIds E rest

/-- The records the loop will create (those whose id is not in the snapshot
`E`), in order. -/
def newRecs (E : List String) : List NodeRec → List NodeRec
  | [] => []
  | r :: rest => if r.id ∈ E then newRecs E rest else r :: newRecs E rest

/-- The incremental node loop of `updateGraph`: the seen-id set is the snapshot
taken *before* the loop. -/
def applyIncrementalNodes (place : Nat → Nat → α × α) (nodes : List (StoreNode α))
    (recs : List NodeRec) : List (StoreNode α) :=
  recs.foldl (stepFn place (nodes.map (fun n => n.id))) nodes

/-! ## Link normalisation (`updateGraph`, link branch) -/

/-- Normalisation of one link record: `source_id || source`,
`target_id || target`, derived id
`` `${sourceId}-${targetId}-${link.relation || link.relationship || 'related'}` ``. -/
def processLink (r : LinkRec) : StoreLink :=
  let s := jsOrS r.source_id r.source
  let t := jsOrS r.target_id r.target
  { source := s
    target := t
    source_id := s
    target_id := t
    relation := r.relation
    relationship := r.relationship
    id := s ++ "-" ++ t ++ "-" ++ jsOrS r.relation (jsOrS r.relationship ("related")) }

/-- One step of the incremental link loop: links whose derived id is in the
snapshot `E` are skipped, the others appended. -/
def linkStep (E : List String) (acc : List StoreLink) (l : StoreLink) :
    List StoreLink :=
  if l.id ∈ E then acc else acc ++ [l]

/-- The incremental link loop of `updateGraph`: the seen-id set is the snapshot
taken before the loop; links whose derived id is unseen are appended. -/
def applyIncrementalLinks (links : List StoreLink) (recs : List LinkRec) :
    List StoreLink :=
  (recs.map processLink).foldl (linkStep (links.map (fun l => l.id))) links

/-! ## Initial-node search and self-heal
(`findInitialNode` / `ensureInitialNodeExpansionStatus`) -/

/-- Test `expansion_status === 'normal' || !expansion_status`. -/
def statusNormalish (s : String) : Bool := s = "normal" || s = ""

/-- Test `typeof expansion_order === 'number' && expansion_order >= 0`. -/
def orderNonneg : Option Int → Bool
  | some k => decide (0 ≤ k)
  | none => false

/-- Model of `findInitialNode` on a non-empty node list, returned as an index:
first the node with `expansion_order === 0`, then (when the `initial-entity`
input is non-blank) the first node matching it by exact id/name or substring
containment either way, then the first node. -/
def findInitialIdx (entity : String) (nodes : List (StoreNode α)) : Nat :=
  match findIdxO (fun n => n.expansion_order = some 0) nodes with
  | some i => i
  | none =>
    match (if entity = "" then none
           else findIdxO (fun n =>
             n.name = entity || n.id = entity ||
             jsIncludes n.name entity || jsIncludes entity n.name) nodes) with
    | some i => i
    | none => 0

/-- Promotion of the found initial node: only applied when its status is
`'normal'`/falsy, setting `expansion_status = 'expansion'` and
`expansion_order = 0`. -/
def promoteNode (n : StoreNode α) : StoreNode α :=
  if statusNormalish n.expansion_status then
    { n with expansion_status := "expansion", expansion_order := some 0 }
  else n

/-- One node of the second loop of `ensureInitialNodeExpansionStatus`: a node
with a numeric `expansion_order ≥ 0` and a normal/falsy status is promoted to
`'expansion'`. -/
def healOrderNode (n : StoreNode α) : StoreNode α :=
  if orderNonneg n.expansion_order && statusNormalish n.expansion_status then
    { n with expansion_status := "expansion" }
  else n

/-- The second loop of `ensureInitialNodeExpansionStatus`, applied node-wise. -/
def selfHealOrders (nodes : List (StoreNode α)) : List (StoreNode α) :=
  nodes.map healOrderNode

/-- Model of `ensureInitialNodeExpansionStatus`: no-op on an empty store, else
promote the found initial node and run the order self-heal loop. -/
def ensureInitial (entity : String) (nodes : List (StoreNode α)) :
    List (StoreNode α) :=
  if nodes.isEmpty then nodes
  else selfHealOrders (modifyAt promoteNode (findInitialIdx entity nodes) nodes)

/-- The non-layout, non-expansion attributes of a store node; the self-heal
passes may only change `expansion_status`/`expansion_order`, never these. -/
def core (n : StoreNode α) : String × String × String × String × Nat × α × α :=
  (n.id, n.name, n.type, n.description, n.group, n.x, n.y)

/-- List `l'` extends list `l` keeping every original node's position. -/
def preservesXY (l l' : List (StoreNode α)) : Prop :=
  l.length ≤ l'.length ∧
    ∀ i (h : i < l.length) (h' : i < l'.length),
      (l'.get ⟨i, h'⟩).x = (l.get ⟨i, h⟩).x ∧ (l'.get ⟨i, h'⟩).y = (l.get ⟨i, h⟩).y

/-! ## The incremental update entry point (`updateGraph(data, true)`) -/

/-- The `expansion_info` pre-pass of `updateGraph`: nodes listed in
`expansion_info.expansion_nodes` get their `expansion_status` forced to
`'current'` (the current node) or `'expansion'` before the merge. -/
def preprocessNodes (info : ExpansionInfo) (recs : List NodeRec) : List NodeRec :=
  if info.expansion_nodes.isEmpty then recs
  else
    let ids : List String := info.expansion_nodes.map (fun n => n.id)
    let cur : Option String := info.current_node.map (fun n => n.id)
    recs.map fun r =>
      if r.id ∈ ids then
        let st : String := if cur = some r.id then "current" else "expansion"
        { r with expansion_status := some st }
      else r

/-- Model of `updateGraph(data, true)` (incremental update).  In source order: the
`expansion_info` block (whose `updateExpansionDisplay` runs the self-heal on the
current store) and record pre-processing; the node loop; the link loop; the
final `ensureInitialNodeExpansionStatus`. -/
def updateGraph (place : Nat → Nat → α × α) (entity : String) (store : Store α)
    (data : Batch) : Store α :=
  let nodes0 :=
    if data.expansion_info.isSome then ensureInitial entity store.nodes
    else store.nodes
  let nodes1 :=
    match data.nodes with
    | none => nodes0
    | some recs =>
      let recs :=
        match data.expansion_info with
        | some info => preprocessNodes info recs
        | none => recs
      applyIncrementalNodes place nodes0 recs
  let links1 :=
    match data.links with
    | none => store.links
    | some lrecs => applyIncrementalLinks store.links lrecs
  { nodes := ensureInitial entity nodes1, links := links1 }

/-! ## The run-preview link resolver (`runs_qa_generation.js`, `displayGraphPreview`)

The preview page builds its own node list from extracted entities, a
name-to-id lookup, and resolves raw relationship records against it, dropping
unresolved and self-loop edges; when nothing resolves it fabricates a chain of
demo links. -/

/-- A preview node (`displayGraphPreview`):
`id = entity.name || entity.id || 'entity_i'`, `name = entity.name || '实体i'`,
with the producer id kept in `originalId`. -/
structure PNode where
  id : String
  name : String
  originalId : Option String := none
deriving DecidableEq, Repr

/-- An extracted entity as consumed by `displayGraphPreview`. -/
structure EntityRec where
  name : Option String := none
  id : Option String := none
deriving DecidableEq, Repr

/-- Construction of one preview node from an entity at index `i`. -/
def pnodeOfEntity (i : Nat) (e : EntityRec) : PNode :=
  { id := jsOr e.name (jsOr e.id ("entity_" ++ toString i))
    name := jsOr e.name ("实体" ++ toString i)
    originalId := e.id }

/-- A raw relationship record; endpoint aliases
`source/source_name/head/from/subject` and `target/target_name/tail/to/object`
(`from`/`to` are spelt `from_`/`to_` because they are Lean keywords), label aliases
`relation/relationship/type/label`.  Absent fields are `""`. -/
structure RelRec where
  source : String := ""
  source_name : String := ""
  head : String := ""
  from_ : String := ""
  subject : String := ""
  target : String := ""
  target_name : String := ""
  tail : String := ""
  to_ : String := ""
  object : String := ""
  relation : String := ""
  relationship : String := ""
  type : String := ""
  label : String := ""
deriving DecidableEq, Repr

/-- A resolved preview link (also the shape of the chain-fallback links). -/
structure PreviewLink where
  source : String
  target : String
  source_id : String
  target_id : String
  relation : String
  id : String
deriving DecidableEq, Repr

/-- The `nameToId` object: for each node, keys `node.id`, `node.name` and
(when truthy) `node.originalId` all map to `node.id`; later nodes overwrite
earlier ones, so a lookup finds the last node owning the key. -/
def nameToId (nodes : List PNode) (key : String) : Option String :=
  (nodes.reverse.find? (fun n =>
    n.id = key || n.name = key ||
    (match n.originalId with
     | some o => o ≠ "" && o = key
     | none => false))).map (fun n => n.id)

/-- Endpoint resolution: exact `nameToId` lookup first (a falsy value counts as
missing), then the fuzzy `nodes.find` fallback by substring containment of the
display name in either direction, or exact id / original-id match. -/
def resolveKey (nodes : List PNode) (key : String) : Option String :=
  let direct : Option String :=
    match nameToId nodes key with
    | some i => if i = "" then none else some i
    | none => none
  match direct with
  | some i => some i
  | none =>
    (nodes.find? (fun n =>
      jsIncludes n.name key || jsIncludes key n.name ||
      n.id = key || n.originalId = some key)).map (fun n => n.id)

/-- Resolution of one relationship record: skip when an endpoint alias chain is
falsy; resolve both endpoints; keep the link only when both resolved ids are
truthy and distinct.  The kept link's `relation` falls through
`relation || relationship || type || label || 'related'` while its derived `id`
uses only `relation || 'related'`, exactly as in the source. -/
def resolveRel (nodes : List PNode) (rel : RelRec) : Option PreviewLink :=
  let sourceKey :=
    jsOrS rel.source (jsOrS rel.source_name (jsOrS rel.head (jsOrS rel.from_ rel.subject)))
  let targetKey :=
    jsOrS rel.target (jsOrS rel.target_name (jsOrS rel.tail (jsOrS rel.to_ rel.object)))
  if sourceKey = "" ∨ targetKey = "" then none
  else
    match resolveKey nodes sourceKey, resolveKey nodes targetKey with
    | some s, some t =>
      if s ≠ "" ∧ t ≠ "" ∧ s ≠ t then
        some { source := s
               target := t
               source_id := s
               target_id := t
               relation := jsOrS rel.relation (jsOrS rel.relationship
                 (jsOrS rel.type rel.label))
               id := s ++ "-" ++ t ++ "-" ++ jsOrS rel.relation ("related") }
      else none
    | _, _ => none

/-- Adjust `relation` default: the JS chain ends in `|| 'related'`. -/
def resolveRelFinal (nodes : List PNode) (rel : RelRec) : Option PreviewLink :=
  (resolveRel nodes rel).map (fun l =>
    { l with relation := jsOrS l.relation ("related") })

/-- The relationship loop of `displayGraphPreview` (a `forEach` that pushes the
successfully resolved links, i.e. a `filterMap`). -/
def displayLinksOfRels (nodes : List PNode) (rels : List RelRec) : List PreviewLink :=
  rels.filterMap (resolveRelFinal nodes)

/-- The synthetic chain fallback: `for (i = 0; i < min(nodes.length - 1, 10); i++)`
pushes a `'related'` link from node `i` to node `i+1`. -/
def chainFallback (nodes : List PNode) : List PreviewLink :=
  ((nodes.zip nodes.tail).take 10).map fun p =>
    { source := p.1.id
      target := p.2.id
      source_id := p.1.id
      target_id := p.2.id
      relation := "related"
      id := p.1.id ++ "-" ++ p.2.id ++ "-related" }

/-- The complete link stage of `displayGraphPreview`: resolve everything, and
when no link survived while more than one node exists, substitute the chain
fallback. -/
def previewLinks (nodes : List PNode) (rels : List RelRec) : List PreviewLink :=
  let links := displayLinksOfRels nodes rels
  if links.isEmpty ∧ nodes.length > 1 then chainFallback nodes else links

/-! ## Highlight overlay (`highlightSampledGraph`)

Styles are modelled attribute-by-attribute; each pass of the function assigns
every one of the attributes it owns, on every element, so the final style after
a call is independent of the style state before the call. -/

/-- The style attributes `highlightSampledGraph` / `renderCurrentGraph` set on
a node's circle, plus the `sampled` class. -/
structure NodeStyle where
  fill : String
  stroke : String
  strokeWidth : String
  opacity : ℚ
  filter : String
  sampled : Bool
deriving DecidableEq, Repr

/-- The style attributes set on a link line, plus the `sampled` class. -/
structure LinkStyle where
  stroke : String
  strokeWidth : ℚ
  opacity : ℚ
  markerEnd : String
  filter : String
  sampled : Bool
deriving DecidableEq, Repr

/-- A fresh SVG element: no explicit styles, default opacity 1, no filter. -/
def defaultNodeStyle : NodeStyle :=
  { fill := "", stroke := "", strokeWidth := "", opacity := 1, filter := "none"
    sampled := false }

/-- A fresh SVG line before any style pass. -/
def defaultLinkStyle : LinkStyle :=
  { stroke := "", strokeWidth := 0, opacity := 1, markerEnd := "", filter := "none"
    sampled := false }

/-- Model of `getNodeColor`: colour by expansion status. -/
def getNodeColor (d : StoreNode α) : String :=
  if d.expansion_status = "current" then "#1e40af"
  else if d.expansion_status = "expansion" then "#60a5fa"
  else "#94a3b8"

/-- The node styling applied by `renderCurrentGraph` (fill, stroke and stroke
width from the expansion status; opacity and filter are left untouched). -/
def renderNodeStyle (d : StoreNode α) (prev : NodeStyle) : NodeStyle :=
  { prev with
    fill := getNodeColor d
    stroke :=
      if d.expansion_status = "current" then "#1e3a8a"
      else if d.expansion_status = "expansion" then "#2563eb"
      else "#6b7280"
    strokeWidth :=
      (if d.expansion_status = "current" then "4"
       else if d.expansion_status = "expansion" then "3"
       else "2") ++ "px" }

/-- The link styling applied by `renderCurrentGraph` on entering links. -/
def renderLinkStyle (prev : LinkStyle) : LinkStyle :=
  { prev with
    stroke := "#64748b"
    strokeWidth := 2.5
    opacity := 0.8
    markerEnd := "url(#arrowhead)" }

/-- A sampled node reference of a `sampled_graph_update` (`id || name`). -/
structure SampledNodeRef where
  id : String := ""
  name : String := ""
deriving DecidableEq, Repr

/-- A sampled link reference (`source_id || source`, `target_id || target`). -/
structure SampledLinkRef where
  source : String := ""
  target : String := ""
  source_id : String := ""
  target_id : String := ""
deriving DecidableEq, Repr

/-- The set `sampledNodeIds` (membership is what matters; kept as a list). -/
def sampledNodeIdSet (sn : List SampledNodeRef) : List String :=
  sn.filterMap (fun n =>
    let nid := jsOrS n.id n.name
    if nid = "" then none else some nid)

/-- The set `sampledLinkIds`: both orientations of every sampled endpoint pair
with truthy endpoints, encoded as `s-t` strings. -/
def sampledLinkIdSet (sl : List SampledLinkRef) : List String :=
  sl.flatMap (fun l =>
    let s := jsOrS l.source_id l.source
    let t := jsOrS l.target_id l.target
    if s ≠ "" ∧ t ≠ "" then [s ++ "-" ++ t, t ++ "-" ++ s] else [])

/-- The set `connectedLinkIds`: the sampled pairs plus both orientations of
every stored link one of whose endpoints is a sampled node. -/
def connectedLinkIdSet (storeLinks : List StoreLink) (snids slids : List String) :
    List String :=
  slids ++ storeLinks.flatMap (fun l =>
    let s := jsOrS l.source_id l.source
    let t := jsOrS l.target_id l.target
    if s ∈ snids ∨ t ∈ snids then [s ++ "-" ++ t, t ++ "-" ++ s] else [])

/-- The reset pass over nodes (first `each` loop): every owned attribute is
assigned a baseline-ish value. -/
def resetNodeStyle (d : StoreNode α) (prev : NodeStyle) : NodeStyle :=
  { prev with
    fill := getNodeColor d
    stroke := "#6b7280"
    strokeWidth := "2px"
    opacity := 1
    filter := "none"
    sampled := false }

/-- The classification pass over nodes (second `each` loop): sampled nodes are
emphasised, all others dimmed to opacity 0.4 with a thin stroke. -/
def classifyNodeStyle (snids : List String) (d : StoreNode α) (prev : NodeStyle) :
    NodeStyle :=
  if d.id ∈ snids ∨ d.name ∈ snids then
    { prev with
      fill := "#3b82f6"
      stroke := "#1d4ed8"
      strokeWidth := "4px"
      opacity := 1
      filter := "drop-shadow(0 0 8px rgba(59, 130, 246, 0.6))"
      sampled := true }
  else
    { prev with
      fill := getNodeColor d
      stroke := "#6b7280"
      strokeWidth := "1px"
      opacity := 0.4
      filter := "none"
      sampled := false }

/-- The reset pass over links. -/
def resetLinkStyle (prev : LinkStyle) : LinkStyle :=
  { prev with
    stroke := "#94a3b8"
    strokeWidth := 2
    opacity := 1
    markerEnd := "url(#arrowhead)"
    filter := "none"
    sampled := false }

/-- The classification pass over links, given the rendered endpoint ids `s`/`t`:
links whose id in either orientation is in `connectedLinkIds` are emphasised,
all others dimmed to opacity 0.3. -/
def classifyLinkStyle (cids : List String) (s t : String) (prev : LinkStyle) :
    LinkStyle :=
  if (s ++ "-" ++ t) ∈ cids ∨ (t ++ "-" ++ s) ∈ cids then
    { prev with
      stroke := "#1d4ed8"
      strokeWidth := 4
      opacity := 1
      markerEnd := "url(#arrowhead-highlight)"
      filter := "drop-shadow(0 0 4px rgba(29, 78, 216, 0.5))"
      sampled := true }
  else
    { prev with
      stroke := "#94a3b8"
      strokeWidth := 1
      opacity := 0.3
      markerEnd := "url(#arrowhead)"
      filter := "none"
      sampled := false }

/-- One overlay call on one node: reset pass then classification pass. -/
def overlayNodeStyle (snids : List String) (d : StoreNode α) (prev : NodeStyle) :
    NodeStyle :=
  classifyNodeStyle snids d (resetNodeStyle d prev)

/-- One overlay call on one link: reset pass then classification pass. -/
def overlayLinkStyle (cids : List String) (l : StoreLink) (prev : LinkStyle) :
    LinkStyle :=
  classifyLinkStyle cids l.source l.target prev

/-- The style state of the rendered graph: one style per store node and per
store link, positionally aligned with the store. -/
structure StyleState where
  nodeStyles : List NodeStyle
  linkStyles : List LinkStyle
deriving DecidableEq, Repr

/-- Model of one full `highlightSampledGraph(sampledNodes, sampledLinks)` call
over the current store and the current DOM style state. -/
def overlayState (store : Store α) (sn : List SampledNodeRef)
    (sl : List SampledLinkRef) (prev : StyleState) : StyleState :=
  let snids := sampledNodeIdSet sn
  let slids := sampledLinkIdSet sl
  let cids := connectedLinkIdSet store.links snids slids
  { nodeStyles := List.zipWith (overlayNodeStyle snids) store.nodes prev.nodeStyles
    linkStyles := List.zipWith (overlayLinkStyle cids) store.links prev.linkStyles }

/-- The style state produced by `renderCurrentGraph` on freshly created
elements: the baseline in which the overlay was never called. -/
def renderBaseline (store : Store α) : StyleState :=
  { nodeStyles := store.nodes.map (fun d => renderNodeStyle d defaultNodeStyle)
    linkStyles := store.links.map (fun _ => renderLinkStyle defaultLinkStyle) }

/-! ## Viewport fitting (`adjustViewBox` / `fitView`), over `ℚ` -/

/-- Minimum of a list, seeded from its head (`Infinity`-seeded `Math.min` fold). -/
def qmin : List ℚ → ℚ
  | [] => 0
  | a :: as => as.foldl min a

/-- Maximum of a list, seeded from its head. -/
def qmax : List ℚ → ℚ
  | [] => 0
  | a :: as => as.foldl max a

/-- Model of `getNodeRadius`: base radius 25 plus 2 per incident link
(`connectionCount`), capped at +15. -/
def getNodeRadius (links : List StoreLink) (d : StoreNode ℚ) : ℚ :=
  25 + min ((((links.filter (fun l =>
    jsOrS l.source_id l.source = d.id ||
      jsOrS l.target_id l.target = d.id)).length : ℚ)) * 2) 15

/-- Left edge of the radius-expanded bounding box of all nodes. -/
def bboxMinX (links : List StoreLink) (nodes : List (StoreNode ℚ)) : ℚ :=
  qmin (nodes.map fun n => n.x - getNodeRadius links n)

/-- Right edge of the radius-expanded bounding box. -/
def bboxMaxX (links : List StoreLink) (nodes : List (StoreNode ℚ)) : ℚ :=
  qmax (nodes.map fun n => n.x + getNodeRadius links n)

/-- Top edge of the radius-expanded bounding box. -/
def bboxMinY (links : List StoreLink) (nodes : List (StoreNode ℚ)) : ℚ :=
  qmin (nodes.map fun n => n.y - getNodeRadius links n)

/-- Bottom edge of the radius-expanded bounding box. -/
def bboxMaxY (links : List StoreLink) (nodes : List (StoreNode ℚ)) : ℚ :=
  qmax (nodes.map fun n => n.y + getNodeRadius links n)

/-- Padded graph width of `adjustViewBox` (`maxX - minX + padding * 2`,
`padding = 100`). -/
def graphWidth (links : List StoreLink) (nodes : List (StoreNode ℚ)) : ℚ :=
  bboxMaxX links nodes - bboxMinX links nodes + 200

/-- Padded graph height of `adjustViewBox`. -/
def graphHeight (links : List StoreLink) (nodes : List (StoreNode ℚ)) : ℚ :=
  bboxMaxY links nodes - bboxMinY links nodes + 200

/-- The result of `adjustViewBox`: scale and viewBox, or `none` when there are
no nodes (the early return). -/
structure ViewBoxResult where
  scale : ℚ
  vbX : ℚ
  vbY : ℚ
  vbW : ℚ
  vbH : ℚ
deriving DecidableEq, Repr

/-- Model of `adjustViewBox`: bails out without nodes; otherwise computes the
radius-and-padding expanded bounding box, the largest scale that fits it into
the container capped at 1, and a viewBox of at least the scaled container size
centred on the box. -/
def adjustViewBox (links : List StoreLink) (nodes : List (StoreNode ℚ))
    (cw ch : ℚ) : Option ViewBoxResult :=
  if nodes.isEmpty then none
  else
    let gw := graphWidth links nodes
    let gh := graphHeight links nodes
    let cX := (bboxMinX links nodes + bboxMaxX links nodes) / 2
    let cY := (bboxMinY links nodes + bboxMaxY links nodes) / 2
    let scale := min (cw / gw) (min (ch / gh) 1)
    let vbW := max gw (cw / scale)
    let vbH := max gh (ch / scale)
    some { scale := scale, vbX := cX - vbW / 2, vbY := cY - vbH / 2
           vbW := vbW, vbH := vbH }

/-- The scale computed by the `fitView` control: extents of the node *centres*
(no radii), a minimum 200px span, padding 100, and a cap of **1.5**. -/
def fitViewScale (nodes : List (StoreNode ℚ)) (cw ch : ℚ) : ℚ :=
  let xmin := qmin (nodes.map fun n => n.x)
  let xmax := qmax (nodes.map fun n => n.x)
  let ymin := qmin (nodes.map fun n => n.y)
  let ymax := qmax (nodes.map fun n => n.y)
  let gw := max (xmax - xmin) 200 + 200
  let gh := max (ymax - ymin) 200 + 200
  min (cw / gw) (min (ch / gh) (3 / 2))

/-! ## Initial placement (`createPositionedNode`), over `ℝ`

Container dimensions are the parameters `W`/`H` (the code falls back to
1200×800 when the DOM reports zero).  The two `Math.random()` draws of the
grid branch are the parameters `r1`/`r2 ∈ [0,1)`. -/

/-- Model of `createPositionedNode`: deterministic placement of node `index`
out of `totalNodes` — centre, regular polygon, concentric rings, or
hex-offset grid with jitter `(rᵢ - 0.5) * 40`. -/
noncomputable def createPositionedNode (W H r1 r2 : ℝ) (index totalNodes : Nat) :
    ℝ × ℝ :=
  let centerX := W / 2
  let centerY := H / 2
  if totalNodes ≤ 1 then (centerX, centerY)
  else if totalNodes ≤ 6 then
    let angle := ((index : ℝ) / (totalNodes : ℝ)) * (2 * Real.pi)
    (centerX + Real.cos angle * 120, centerY + Real.sin angle * 120)
  else if totalNodes ≤ 20 then
    let layer := ⌊Real.sqrt (index : ℝ)⌋₊
    let nodesInLayer := max 6 (layer * 6)
    let angleStep := 2 * Real.pi / (nodesInLayer : ℝ)
    let angle := ((index % nodesInLayer : Nat) : ℝ) * angleStep
    let radius := 80 + (layer : ℝ) * 100
    (centerX + Real.cos angle * radius, centerY + Real.sin angle * radius)
  else
    let gridSize := ⌈Real.sqrt (totalNodes : ℝ)⌉₊ + 2
    let cellWidth := max 120 (min W H / (gridSize : ℝ))
    let cellHeight := cellWidth * 0.866
    let row := index / gridSize
    let col := index % gridSize
    let offsetX := ((row % 2 : Nat) : ℝ) * (cellWidth / 2)
    let x := ((col : ℝ) - (gridSize : ℝ) / 2) * cellWidth + centerX + offsetX
    let y := ((row : ℝ) - (gridSize : ℝ) / 2) * cellHeight + centerY
    (x + (r1 - 0.5) * 40, y + (r2 - 0.5) * 40)

/-- The specification's description of the placement (§4.3 of the spec): centre
for `n ≤ 1`; vertex `i` of the regular `n`-gon of radius 120 for `n ≤ 6`;
concentric rings with ring index `floor(sqrt i)` (`Nat.sqrt`), capacity
`max 6 (ring*6)` and radius `80 + ring*100` for `n ≤ 20`; otherwise a
hex-offset grid (side `ceil(sqrt n) + 2`, cell `max 120 (min W H / side)`,
vertical pitch `0.866` of a cell, odd rows offset by half a cell) plus an
independent jitter of at most ±20 on each axis. -/
noncomputable def placementSpec (W H : ℝ) (i n : Nat) (p : ℝ × ℝ) : Prop :=
  if n ≤ 1 then p = (W / 2, H / 2)
  else if n ≤ 6 then
    p = (W / 2 + 120 * Real.cos (2 * Real.pi * (i : ℝ) / (n : ℝ)),
         H / 2 + 120 * Real.sin (2 * Real.pi * (i : ℝ) / (n : ℝ)))
  else if n ≤ 20 then
    let ring := Nat.sqrt i
    let capacity := max 6 (ring * 6)
    let rad : ℝ := 80 + (ring : ℝ) * 100
    p = (W / 2 + rad * Real.cos (2 * Real.pi * ((i % capacity : Nat) : ℝ) / (capacity : ℝ)),
         H / 2 + rad * Real.sin (2 * Real.pi * ((i % capacity : Nat) : ℝ) / (capacity : ℝ)))
  else
    let side := ⌈Real.sqrt (n : ℝ)⌉₊ + 2
    let cell := max 120 (min W H / (side : ℝ))
    ∃ jx jy : ℝ, |jx| ≤ 20 ∧ |jy| ≤ 20 ∧
      p.1 = (((i % side : Nat) : ℝ) - (side : ℝ) / 2) * cell + W / 2 +
              (((i / side) % 2 : Nat) : ℝ) * (cell / 2) + jx ∧
      p.2 = (((i / side : Nat) : ℝ) - (side : ℝ) / 2) * (cell * 0.866) + H / 2 + jy

/-! ## Concrete inputs used by counterexamples and witnesses -/

/-- A concrete integer-valued placement function for examples. -/
def iplace : Nat → Nat → Int × Int := fun i t => ((i : Int), (t : Int))

/-- A record with id `a`, name `X`. -/
def recAX : NodeRec := { id := "a", name := "X" }

/-- A second record with the same id `a` but name `Y`. -/
def recAY : NodeRec := { id := "a", name := "Y" }

/-- A batch whose two node records share the id `a`. -/
def batchDupIds : Batch := { nodes := some [recAX, recAY] }

/-- A self-loop link record on node `a`. -/
def selfLoopRec : LinkRec := { source := "a", target := "a", relation := "self" }

/-- A batch carrying node `a` and a self-loop on it. -/
def batchSelfLoop : Batch := { nodes := some [recAX], links := some [selfLoopRec] }

/-- A store node used by concrete examples. -/
def exampleNode (id name status : String) (ord : Option Int) : StoreNode Int :=
  { id := id, name := name, type := "concept", description := "", group := 0
    expansion_status := status, expansion_order := ord, x := 0, y := 0 }

/-- A one-node store used by the highlight example. -/
def exStore1 : Store Int := { nodes := [exampleNode "a" "A" "normal" none], links := [] }

/-- A rational-coordinate store node used by the viewport examples. -/
def exqNode (x y : ℚ) : StoreNode ℚ :=
  { id := "q", name := "q", type := "concept", description := "", group := 0
    expansion_status := "normal", expansion_order := none, x := x, y := y }

/-- Twelve preview nodes `n0 … n11` for the chain-fallback example. -/
def twelveNodes : List PNode :=
  (List.range 12).map fun i => { id := "n" ++ toString i, name := "n" ++ toString i }

/-! # Theorems -/

/-! ## C4: initial placement -/

/-- C4.  Initial placement: for every node index `i`, count `n`, container
dimensions and jitter draws in `[0,1]`, `createPositionedNode` returns the
container centre when `n ≤ 1`; the `i`-th vertex of the regular `n`-gon of
radius 120 around the centre when `n ≤ 6`; the concentric-ring position with
ring `⌊√i⌋`, capacity `max 6 (ring*6)` and radius `80 + ring*100` when
`n ≤ 20`; and otherwise the hex-offset grid position (side `⌈√n⌉ + 2`, cell
`max 120 (min W H / side)`, odd rows offset half a cell) plus an independent
jitter of at most ±20 on each axis. -/
theorem claim_C4_initial_placement (W H r1 r2 : ℝ) (i n : Nat)
    (h1 : 0 ≤ r1) (h2 : r1 ≤ 1) (h3 : 0 ≤ r2) (h4 : r2 ≤ 1) :
    placementSpec W H i n (createPositionedNode W H r1 r2 i n) := by
  have hb : ⌊Real.sqrt ((i : Nat) : ℝ)⌋₊ = Nat.sqrt i :=
    Real.nat_floor_real_sqrt_eq_nat_sqrt
  simp only [placementSpec, createPositionedNode]
  split_ifs with hn1 hn6 hn20
  · rfl
  · simp only [Prod.mk.injEq]
    constructor <;> ring_nf
  · rw [hb]
    simp only [Prod.mk.injEq]
    constructor <;> ring_nf
  · have b1 : |(r1 - 0.5) * 40| ≤ 20 := by
      rw [abs_mul, abs_of_nonneg (by norm_num : (0:ℝ) ≤ 40)]
      have : |r1 - 0.5| ≤ 0.5 := abs_le.mpr ⟨by linarith, by linarith⟩
      nlinarith [abs_nonneg (r1 - 0.5)]
    have b2 : |(r2 - 0.5) * 40| ≤ 20 := by
      rw [abs_mul, abs_of_nonneg (by norm_num : (0:ℝ) ≤ 40)]
      have : |r2 - 0.5| ≤ 0.5 := abs_le.mpr ⟨by linarith, by linarith⟩
      nlinarith [abs_nonneg (r2 - 0.5)]
    exact ⟨(r1 - 0.5) * 40, (r2 - 0.5) * 40, b1, b2, by ring_nf, by ring_nf⟩

/-- Witness for C4 at a concrete input (grid branch, jitter draw 1/2). -/
theorem claim_C4_initial_placement_witness :
    (0 : ℝ) ≤ 1/2 ∧ (1/2 : ℝ) ≤ 1 ∧
      placementSpec 1200 800 3 25 (createPositionedNode 1200 800 (1/2) (1/2) 3 25) :=
  ⟨by norm_num, by norm_num,
    claim_C4_initial_placement 1200 800 (1/2) (1/2) 3 25 (by norm_num) (by norm_num)
      (by norm_num) (by norm_num)⟩

/-! ## List toolkit lemmas -/

theorem get_map' (f : β → γ) (l : List β) (i : Nat) (h : i < l.length)
    (h' : i < (l.map f).length) : (l.map f).get ⟨i, h'⟩ = f (l.get ⟨i, h⟩) := by
  induction l generalizing i with
  | nil => cases h
  | cons b bs ih =>
    cases i with
    | zero => rfl
    | succ k => exact ih k (Nat.lt_of_succ_lt_succ h) (by simpa using h')

theorem get_append_left' (l l2 : List β) (i : Nat) (h : i < l.length)
    (h' : i < (l ++ l2).length) : (l ++ l2).get ⟨i, h'⟩ = l.get ⟨i, h⟩ := by
  induction l generalizing i with
  | nil => cases h
  | cons b bs ih =>
    cases i with
    | zero => rfl
    | succ k => exact ih k (Nat.lt_of_succ_lt_succ h) (by simpa using h')

theorem length_modifyAt (f : β → β) (j : Nat) (l : List β) :
    (modifyAt f j l).length = l.length := by
  induction l generalizing j with
  | nil => cases j <;> rfl
  | cons b bs ih => cases j <;> simp [modifyAt, ih]

theorem get_modifyAt (f : β → β) (j : Nat) (l : List β) (i : Nat)
    (h : i < l.length) (h' : i < (modifyAt f j l).length) :
    (modifyAt f j l).get ⟨i, h'⟩ =
      if i = j then f (l.get ⟨i, h⟩) else l.get ⟨i, h⟩ := by
  induction l generalizing i j with
  | nil => cases h
  | cons b bs ih =>
    cases j with
    | zero =>
      cases i with
      | zero => simp [modifyAt]
      | succ k => simp [modifyAt]
    | succ m =>
      cases i with
      | zero => simp [modifyAt]
      | succ k =>
        have hk' : k < (modifyAt f m bs).length := by
          have h1 := length_modifyAt f (m + 1) (b :: bs)
          have h2 := length_modifyAt f m bs
          simp only [List.length_cons] at h1
          omega
        have := ih m k (Nat.lt_of_succ_lt_succ h) hk'
        simp only [modifyAt, List.get_cons_succ, this]
        by_cases hk : k = m
        · simp [hk]
        · simp [hk, fun hc => hk (Nat.succ_injective hc)]

theorem findIdxO_nil (p : β → Bool) : findIdxO p ([] : List β) = none := rfl

theorem findIdxO_cons (p : β → Bool) (b : β) (bs : List β) :
    findIdxO p (b :: bs) =
      if p b then some 0 else (findIdxO p bs).map (fun k => k + 1) := rfl

theorem findIdxO_lt (p : β → Bool) (l : List β) (i : Nat)
    (h : findIdxO p l = some i) : i < l.length := by
  induction l generalizing i with
  | nil => cases h
  | cons b bs ih =>
    rw [findIdxO_cons] at h
    by_cases hp : p b
    · rw [if_pos hp] at h
      injection h with h2
      subst h2
      simp
    · rw [if_neg hp, Option.map_eq_some'] at h
      obtain ⟨k, hk, rfl⟩ := h
      simpa using Nat.succ_lt_succ (ih k hk)

theorem findIdxO_get (p : β → Bool) (l : List β) (i : Nat)
    (hfi : findIdxO p l = some i) (h : i < l.length) :
    p (l.get ⟨i, h⟩) = true := by
  induction l generalizing i with
  | nil => cases hfi
  | cons b bs ih =>
    rw [findIdxO_cons] at hfi
    by_cases hp : p b
    · rw [if_pos hp] at hfi
      injection hfi with h2
      subst h2
      simpa using hp
    · rw [if_neg hp, Option.map_eq_some'] at hfi
      obtain ⟨k, hk, rfl⟩ := hfi
      exact ih k hk (Nat.lt_of_succ_lt_succ h)

theorem findIdxO_before (p : β → Bool) (l : List β) (i : Nat)
    (hfi : findIdxO p l = some i) :
    ∀ k, k < i → ∀ (hk : k < l.length), p (l.get ⟨k, hk⟩) = false := by
  induction l generalizing i with
  | nil => intro k _ hk; cases hk
  | cons b bs ih =>
    rw [findIdxO_cons] at hfi
    by_cases hp : p b
    · rw [if_pos hp] at hfi
      injection hfi with h2
      subst h2
      intro k hk
      omega
    · rw [if_neg hp, Option.map_eq_some'] at hfi
      obtain ⟨m, hm, rfl⟩ := hfi
      intro k hk hkl
      cases k with
      | zero => simpa using hp
      | succ k2 => exact ih m hm k2 (by omega) (Nat.lt_of_succ_lt_succ hkl)

theorem findIdxO_eq_none_iff (p : β → Bool) (l : List β) :
    findIdxO p l = none ↔ ∀ b ∈ l, p b = false := by
  induction l with
  | nil => simp [findIdxO_nil]
  | cons b bs ih =>
    rw [findIdxO_cons]
    by_cases hp : p b
    · simp [hp]
    · simp [hp, ih]

theorem findIdxO_map (p : γ → Bool) (f : β → γ) (l : List β) :
    findIdxO p (l.map f) = findIdxO (fun b => p (f b)) l := by
  induction l with
  | nil => rfl
  | cons b bs ih => by_cases hp : p (f b) <;> simp [findIdxO_cons, hp, ih]

theorem findIdxO_congr (p q : β → Bool) (l l2 : List β)
    (hlen : l.length = l2.length)
    (hp : ∀ i (h : i < l.length) (h' : i < l2.length),
      p (l.get ⟨i, h⟩) = q (l2.get ⟨i, h'⟩)) :
    findIdxO p l = findIdxO q l2 := by
  induction l generalizing l2 with
  | nil => cases l2 with
    | nil => rfl
    | cons c cs => cases hlen
  | cons b bs ih =>
    cases l2 with
    | nil => cases hlen
    | cons c cs =>
      have h0 : p b = q c := hp 0 (by simp) (by simp)
      have hrest := ih cs (by simpa using hlen)
        (fun i h h' => hp (i + 1) (Nat.succ_lt_succ h) (Nat.succ_lt_succ h'))
      rw [findIdxO_cons, findIdxO_cons, h0, hrest]

theorem findIdxO_append_left (p : β → Bool) (l l2 : List β) (i : Nat)
    (h : findIdxO p l = some i) : findIdxO p (l ++ l2) = some i := by
  induction l generalizing i with
  | nil => cases h
  | cons b bs ih =>
    rw [findIdxO_cons] at h
    rw [List.cons_append, findIdxO_cons]
    by_cases hp : p b
    · rwa [if_pos hp] at h ⊢
    · rw [if_neg hp, Option.map_eq_some'] at h
      obtain ⟨k, hk, rfl⟩ := h
      rw [if_neg hp, ih k hk]
      rfl

theorem findIdxO_append_small (p : β → Bool) (l l2 : List β) (i : Nat)
    (h : findIdxO p (l ++ l2) = some i) (hi : i < l.length) :
    findIdxO p l = some i := by
  induction l generalizing i with
  | nil => cases hi
  | cons b bs ih =>
    rw [List.cons_append, findIdxO_cons] at h
    rw [findIdxO_cons]
    by_cases hp : p b
    · rwa [if_pos hp] at h ⊢
    · rw [if_neg hp, Option.map_eq_some'] at h
      obtain ⟨k, hk, rfl⟩ := h
      rw [if_neg hp, ih k hk (Nat.lt_of_succ_lt_succ hi)]
      rfl

/-! ## Node-level lemmas -/

theorem core_promoteNode (n : StoreNode α) : core (promoteNode n) = core n := by
  unfold promoteNode
  split <;> rfl

theorem core_healOrderNode (n : StoreNode α) : core (healOrderNode n) = core n := by
  unfold healOrderNode
  split <;> rfl

theorem id_promoteNode (n : StoreNode α) : (promoteNode n).id = n.id := by
  unfold promoteNode
  split <;> rfl

theorem id_healOrderNode (n : StoreNode α) : (healOrderNode n).id = n.id := by
  unfold healOrderNode
  split <;> rfl

theorem ord_healOrderNode (n : StoreNode α) :
    (healOrderNode n).expansion_order = n.expansion_order := by
  unfold healOrderNode
  split <;> rfl

theorem name_promoteNode (n : StoreNode α) : (promoteNode n).name = n.name := by
  unfold promoteNode
  split <;> rfl

theorem name_healOrderNode (n : StoreNode α) : (healOrderNode n).name = n.name := by
  unfold healOrderNode
  split <;> rfl

theorem xy_of_core_eq {n m : StoreNode α} (h : core n = core m) :
    n.x = m.x ∧ n.y = m.y := by
  cases n
  cases m
  simp only [core, Prod.mk.injEq] at h
  exact ⟨h.2.2.2.2.2.1, h.2.2.2.2.2.2⟩

theorem mergeNode_congr_core {n m : StoreNode α} (r : NodeRec)
    (h : core n = core m) : mergeNode n r = mergeNode m r := by
  cases n
  cases m
  simp only [core, Prod.mk.injEq] at h
  obtain ⟨h1, h2, h3, h4, h5, h6, h7⟩ := h
  simp only [mergeNode, h3, h4, h5, h6, h7]

theorem mergeNode_mergeNode (n : StoreNode α) (r : NodeRec) :
    mergeNode (mergeNode n r) r = mergeNode n r := by
  cases n
  simp only [mergeNode]
  cases r.type <;> cases r.description <;> cases r.group <;> simp

theorem if_empty_string (s : String) : (if s = "" then ("" : String) else s) = s := by
  split <;> simp_all

theorem mergeNode_createStoreNode (place : Nat → Nat → α × α) (r : NodeRec)
    (index total : Nat) (ht : r.type ≠ some "") :
    mergeNode (createStoreNode place r index total) r =
      createStoreNode place r index total := by
  simp only [mergeNode, createStoreNode]
  cases hty : r.type with
  | none => cases r.description <;> cases r.group <;> simp [jsOr, if_empty_string]
  | some t =>
    have hne : t ≠ "" := by
      intro hc
      exact ht (by rw [hty, hc])
    cases r.description <;> cases r.group <;> simp [jsOr, hne, if_empty_string]

theorem mergeNode_x (n : StoreNode α) (r : NodeRec) : (mergeNode n r).x = n.x := rfl

theorem mergeNode_y (n : StoreNode α) (r : NodeRec) : (mergeNode n r).y = n.y := rfl

/-! ## mergeFirst lemmas -/

theorem mergeFirst_length (l : List (StoreNode α)) (r : NodeRec) :
    (mergeFirst l r).length = l.length := by
  induction l with
  | nil => rfl
  | cons n ns ih =>
    by_cases h : n.id = r.id <;> simp [mergeFirst, h, ih]

theorem ids_mergeFirst (l : List (StoreNode α)) (r : NodeRec) :
    (mergeFirst l r).map (fun n => n.id) = l.map (fun n => n.id) := by
  induction l with
  | nil => rfl
  | cons n ns ih =>
    by_cases h : n.id = r.id
    · simp [mergeFirst, h, mergeNode]
    · simp [mergeFirst, h, ih]

theorem mergeFirst_getq (l : List (StoreNode α)) (r : NodeRec) (i : Nat) :
    (mergeFirst l r).get? i =
      if findIdxO (fun n => n.id = r.id) l = some i then
        (l.get? i).map (fun n => mergeNode n r)
      else l.get? i := by
  induction l generalizing i with
  | nil => simp [mergeFirst, findIdxO_nil]
  | cons n ns ih =>
    by_cases hid : n.id = r.id
    · have hf : findIdxO (fun n => n.id = r.id) (n :: ns) = some 0 := by
        simp [findIdxO_cons, hid]
      rw [hf]
      cases i with
      | zero => simp [mergeFirst, hid]
      | succ k => simp [mergeFirst, hid]
    · have hf : findIdxO (fun n => n.id = r.id) (n :: ns) =
          (findIdxO (fun n => n.id = r.id) ns).map (fun k => k + 1) := by
        simp [findIdxO_cons, hid]
      rw [hf]
      cases i with
      | zero =>
        have hz : ¬((findIdxO (fun n => n.id = r.id) ns).map (fun k => k + 1) = some 0) := by
          cases findIdxO (fun n => n.id = r.id) ns <;> simp
        simp [mergeFirst, hid, hz]
      | succ k =>
        have hs : ((findIdxO (fun n => n.id = r.id) ns).map (fun k => k + 1) = some (k + 1)) ↔
            findIdxO (fun n => n.id = r.id) ns = some k := by
          simp [Option.map_eq_some']
        by_cases hc : findIdxO (fun n => n.id = r.id) ns = some k
        · rw [if_pos (hs.mpr hc)]
          simp only [mergeFirst, if_neg hid, List.get?_cons_succ]
          rw [ih k, if_pos hc]
        · rw [if_neg (fun hcon => hc (hs.mp hcon))]
          simp only [mergeFirst, if_neg hid, List.get?_cons_succ]
          rw [ih k, if_neg hc]

theorem mergeFirst_get (l : List (StoreNode α)) (r : NodeRec) (i : Nat)
    (h : i < l.length) (h' : i < (mergeFirst l r).length) :
    (mergeFirst l r).get ⟨i, h'⟩ =
      if findIdxO (fun n => n.id = r.id) l = some i then
        mergeNode (l.get ⟨i, h⟩) r
      else l.get ⟨i, h⟩ := by
  have hq := mergeFirst_getq l r i
  rw [List.get?_eq_get h, List.get?_eq_get h'] at hq
  by_cases hc : findIdxO (fun n => n.id = r.id) l = some i
  · rw [if_pos hc] at hq ⊢
    simpa using hq
  · rw [if_neg hc] at hq ⊢
    simpa using hq

theorem mergeFirst_of_none (l : List (StoreNode α)) (r : NodeRec)
    (h : findIdxO (fun n => n.id = r.id) l = none) : mergeFirst l r = l := by
  induction l with
  | nil => rfl
  | cons n ns ih =>
    rw [findIdxO_cons] at h
    by_cases hid : n.id = r.id
    · simp [hid] at h
    · simp only [hid, decide_False, Bool.false_eq_true, if_false,
        Option.map_eq_none'] at h
      simp [mergeFirst, hid, ih h]

/-! ## ensureInitial lemmas -/

theorem ids_modifyAt (f : StoreNode α → StoreNode α) (j : Nat)
    (l : List (StoreNode α)) (hf : ∀ n, (f n).id = n.id) :
    (modifyAt f j l).map (fun n => n.id) = l.map (fun n => n.id) := by
  induction l generalizing j with
  | nil => cases j <;> rfl
  | cons n ns ih => cases j <;> simp [modifyAt, hf, ih]

theorem ids_selfHealOrders (l : List (StoreNode α)) :
    (selfHealOrders l).map (fun n => n.id) = l.map (fun n => n.id) := by
  simp only [selfHealOrders, List.map_map]
  exact List.map_congr_left (fun n _ => id_healOrderNode n)

theorem ensureInitial_length (entity : String) (l : List (StoreNode α)) :
    (ensureInitial entity l).length = l.length := by
  unfold ensureInitial
  split
  · rfl
  · simp [selfHealOrders, length_modifyAt]

theorem ids_ensureInitial (entity : String) (l : List (StoreNode α)) :
    (ensureInitial entity l).map (fun n => n.id) = l.map (fun n => n.id) := by
  unfold ensureInitial
  split
  · rfl
  · rw [ids_selfHealOrders, ids_modifyAt _ _ _ id_promoteNode]

theorem modifyAt_getq (f : β → β) (j : Nat) (l : List β) (i : Nat) :
    (modifyAt f j l).get? i = if i = j then (l.get? i).map f else l.get? i := by
  induction l generalizing i j with
  | nil => cases j <;> simp [modifyAt]
  | cons b bs ih =>
    cases j with
    | zero => cases i <;> simp [modifyAt]
    | succ m =>
      cases i with
      | zero => simp [modifyAt]
      | succ k =>
        simp only [modifyAt, List.get?_cons_succ, ih m k]
        by_cases hk : k = m
        · simp [hk]
        · simp [hk, fun hc => hk (Nat.succ_injective hc)]

theorem ensureInitial_getq (entity : String) (l : List (StoreNode α)) (i : Nat) :
    (ensureInitial entity l).get? i =
      (l.get? i).map (fun n =>
        healOrderNode (if i = findInitialIdx entity l then promoteNode n else n)) := by
  unfold ensureInitial
  split
  · rename_i hemp
    have : l = [] := by
      cases l with
      | nil => rfl
      | cons a as => simp at hemp
    subst this
    simp
  · rw [selfHealOrders, List.get?_map, modifyAt_getq]
    by_cases hij : i = findInitialIdx entity l
    · simp [hij, Option.map_map]
      rfl
    · simp [hij]

theorem getq_xy_bridge (l l2 : List (StoreNode α)) (i : Nat)
    (h : i < l.length) (h2 : i < l2.length)
    (hq : (l2.get? i).map (fun n => (n.x, n.y)) =
      (l.get? i).map (fun n => (n.x, n.y))) :
    (l2.get ⟨i, h2⟩).x = (l.get ⟨i, h⟩).x ∧
      (l2.get ⟨i, h2⟩).y = (l.get ⟨i, h⟩).y := by
  rw [List.get?_eq_get h, List.get?_eq_get h2] at hq
  simp only [Option.map_some', Option.some.injEq, Prod.mk.injEq] at hq
  exact hq

theorem xy_ensureInitial_getq (entity : String) (l : List (StoreNode α)) (i : Nat) :
    ((ensureInitial entity l).get? i).map (fun n => (n.x, n.y)) =
      (l.get? i).map (fun n => (n.x, n.y)) := by
  rw [ensureInitial_getq, Option.map_map]
  apply congrFun
  apply congrArg
  funext n
  show (fun n => (n.x, n.y)) (healOrderNode _) = _
  have hc := core_healOrderNode (α := α)
  have hp := core_promoteNode (α := α)
  by_cases hij : i = findInitialIdx entity l
  · rw [if_pos hij]
    have : core (healOrderNode (promoteNode n)) = core n :=
      (hc (promoteNode n)).trans (hp n)
    exact Prod.ext (xy_of_core_eq this).1 (xy_of_core_eq this).2
  · rw [if_neg hij]
    have : core (healOrderNode n) = core n := hc n
    exact Prod.ext (xy_of_core_eq this).1 (xy_of_core_eq this).2

/-! ## Fold (incremental node loop) lemmas -/

theorem foldl_stepFn_length_le (place : Nat → Nat → α × α) (E : List String)
    (recs : List NodeRec) (acc : List (StoreNode α)) :
    acc.length ≤ (recs.foldl (stepFn place E) acc).length := by
  induction recs generalizing acc with
  | nil => simp
  | cons r rest ih =>
    refine le_trans ?_ (ih (stepFn place E acc r))
    unfold stepFn
    split
    · rw [mergeFirst_length]
    · simp

theorem stepFn_getq_xy (place : Nat → Nat → α × α) (E : List String)
    (acc : List (StoreNode α)) (r : NodeRec) (i : Nat) (h : i < acc.length) :
    ((stepFn place E acc r).get? i).map (fun n => (n.x, n.y)) =
      (acc.get? i).map (fun n => (n.x, n.y)) := by
  unfold stepFn
  split
  · rw [mergeFirst_getq]
    split
    · rw [Option.map_map]
      apply congrFun
      apply congrArg
      funext n
      exact Prod.ext (mergeNode_x n r) (mergeNode_y n r)
    · rfl
  · rw [List.get?_append h]

theorem foldl_stepFn_getq_xy (place : Nat → Nat → α × α) (E : List String)
    (recs : List NodeRec) (acc : List (StoreNode α)) (i : Nat)
    (h : i < acc.length) :
    (((recs.foldl (stepFn place E) acc).get? i).map (fun n => (n.x, n.y))) =
      (acc.get? i).map (fun n => (n.x, n.y)) := by
  induction recs generalizing acc with
  | nil => rfl
  | cons r rest ih =>
    rw [List.foldl_cons]
    have hlen : i < (stepFn place E acc r).length := by
      unfold stepFn
      split
      · rw [mergeFirst_length]; exact h
      · simp
        omega
    rw [ih (stepFn place E acc r) hlen, stepFn_getq_xy place E acc r i h]

theorem xy_updateGraph_getq (place : Nat → Nat → α × α) (entity : String)
    (store : Store α) (data : Batch) (i : Nat) (h : i < store.nodes.length) :
    ((updateGraph place entity store data).nodes.get? i).map (fun n => (n.x, n.y)) =
      (store.nodes.get? i).map (fun n => (n.x, n.y)) := by
  cases data with
  | mk dn dl dei =>
    cases dn with
    | none =>
      cases dei with
      | none =>
        show ((ensureInitial entity store.nodes).get? i).map _ = _
        rw [xy_ensureInitial_getq]
      | some info =>
        show ((ensureInitial entity (ensureInitial entity store.nodes)).get? i).map _ = _
        rw [xy_ensureInitial_getq, xy_ensureInitial_getq]
    | some recs =>
      cases dei with
      | none =>
        show ((ensureInitial entity
          (applyIncrementalNodes place store.nodes recs)).get? i).map _ = _
        rw [xy_ensureInitial_getq]
        exact foldl_stepFn_getq_xy place _ recs store.nodes i h
      | some info =>
        show ((ensureInitial entity
          (applyIncrementalNodes place (ensureInitial entity store.nodes)
            (preprocessNodes info recs))).get? i).map _ = _
        rw [xy_ensureInitial_getq]
        have hl : i < (ensureInitial entity store.nodes).length := by
          rw [ensureInitial_length]; exact h
        have h1 : ((applyIncrementalNodes place (ensureInitial entity store.nodes)
              (preprocessNodes info recs)).get? i).map (fun n => (n.x, n.y)) =
            (((ensureInitial entity store.nodes)).get? i).map (fun n => (n.x, n.y)) :=
          foldl_stepFn_getq_xy place _ (preprocessNodes info recs)
            (ensureInitial entity store.nodes) i hl
        rw [h1]
        exact xy_ensureInitial_getq entity store.nodes i

/-! ## C3: position stability under merge -/

/-- C3.  Position stability under merge: for every node already present in the
store, an incremental `updateGraph` call — in particular one whose record for
that node changes only attributes such as `type` or `description` — leaves the
node's position `(x, y)` exactly unchanged; a merge never resets a position. -/
theorem claim_C3_position_stability (place : Nat → Nat → α × α) (entity : String)
    (store : Store α) (data : Batch) (i : Nat) (h : i < store.nodes.length)
    (h2 : i < (updateGraph place entity store data).nodes.length) :
    ((updateGraph place entity store data).nodes.get ⟨i, h2⟩).x =
        (store.nodes.get ⟨i, h⟩).x ∧
      ((updateGraph place entity store data).nodes.get ⟨i, h2⟩).y =
        (store.nodes.get ⟨i, h⟩).y :=
  getq_xy_bridge store.nodes _ i h h2
    (xy_updateGraph_getq place entity store data i h)

/-- Witness for C3: the node `a` of a one-node store keeps its position through
an incremental update that merges new attributes into it. -/
theorem claim_C3_position_stability_witness :
    (0 < ({ nodes := [exampleNode "a" "A" "normal" none], links := [] } :
        Store Int).nodes.length) ∧
      (((updateGraph iplace "" { nodes := [exampleNode "a" "A" "normal" none], links := [] }
          { nodes := some [{ id := "a", name := "A2", type := some "person" }] }).nodes.get
            ⟨0, by decide⟩).x =
        ((({ nodes := [exampleNode "a" "A" "normal" none], links := [] } :
          Store Int).nodes.get ⟨0, by decide⟩)).x ∧
       ((updateGraph iplace "" { nodes := [exampleNode "a" "A" "normal" none], links := [] }
          { nodes := some [{ id := "a", name := "A2", type := some "person" }] }).nodes.get
            ⟨0, by decide⟩).y =
        ((({ nodes := [exampleNode "a" "A" "normal" none], links := [] } :
          Store Int).nodes.get ⟨0, by decide⟩)).y) :=
  ⟨by decide,
    claim_C3_position_stability iplace "" _ _ 0 (by decide) (by decide)⟩

/-! ## C2: identity uniqueness -/

theorem ids_preprocessNodes (info : ExpansionInfo) (recs : List NodeRec) :
    (preprocessNodes info recs).map (fun r => r.id) = recs.map (fun r => r.id) := by
  unfold preprocessNodes
  split
  · rfl
  · rw [List.map_map]
    refine List.map_congr_left (fun r _ => ?_)
    simp only [Function.comp]
    split <;> rfl

theorem ids_foldl_stepFn (place : Nat → Nat → α × α) (E : List String)
    (recs : List NodeRec) (acc : List (StoreNode α)) :
    (recs.foldl (stepFn place E) acc).map (fun n => n.id) =
      acc.map (fun n => n.id) ++ newIds E recs := by
  induction recs generalizing acc with
  | nil => simp [newIds]
  | cons r rest ih =>
    rw [List.foldl_cons, ih]
    have hcons : newIds E (r :: rest) =
        if r.id ∈ E then newIds E rest else r.id :: newIds E rest := rfl
    rw [hcons]
    unfold stepFn
    by_cases hmem : r.id ∈ E
    · rw [if_pos hmem, if_pos hmem, ids_mergeFirst]
    · rw [if_neg hmem, if_neg hmem]
      simp [createStoreNode]

theorem ids_applyIncrementalNodes (place : Nat → Nat → α × α)
    (nodes : List (StoreNode α)) (recs : List NodeRec) :
    (applyIncrementalNodes place nodes recs).map (fun n => n.id) =
      nodes.map (fun n => n.id) ++ newIds (nodes.map (fun n => n.id)) recs :=
  ids_foldl_stepFn place _ recs nodes

theorem newIds_sublist (E : List String) (recs : List NodeRec) :
    (newIds E recs).Sublist (recs.map (fun r => r.id)) := by
  induction recs with
  | nil => simp [newIds]
  | cons r rest ih =>
    unfold newIds
    split
    · exact ih.cons r.id
    · exact ih.cons₂ r.id

theorem not_mem_of_mem_newIds (E : List String) (recs : List NodeRec) (s : String)
    (h : s ∈ newIds E recs) : s ∉ E := by
  induction recs with
  | nil => cases h
  | cons r rest ih =>
    unfold newIds at h
    split at h
    · exact ih h
    · rcases List.mem_cons.mp h with h1 | h2
      · subst h1
        assumption
      · exact ih h2

/-- Invariant preservation: one incremental `updateGraph` call on a store with
pairwise-distinct node ids and a batch with pairwise-distinct record ids keeps
the store's node ids pairwise distinct. -/
theorem updateGraph_nodup_ids (place : Nat → Nat → α × α) (entity : String)
    (store : Store α) (data : Batch)
    (hstore : (store.nodes.map (fun n => n.id)).Nodup)
    (hbatch : (((data.nodes).getD []).map (fun r => r.id)).Nodup) :
    ((updateGraph place entity store data).nodes.map (fun n => n.id)).Nodup := by
  cases data with
  | mk dn dl dei =>
    have key : ∀ (nodes0 : List (StoreNode α)) (recs : List NodeRec),
        (nodes0.map (fun n => n.id)).Nodup → (recs.map (fun r => r.id)).Nodup →
        ((applyIncrementalNodes place nodes0 recs).map (fun n => n.id)).Nodup := by
      intro nodes0 recs h0 hr
      rw [ids_applyIncrementalNodes]
      rw [List.nodup_append]
      refine ⟨h0, (newIds_sublist _ recs).nodup hr, ?_⟩
      intro a ha hb
      exact not_mem_of_mem_newIds _ recs a hb ha
    cases dn with
    | none =>
      cases dei with
      | none =>
        show ((ensureInitial entity store.nodes).map (fun n => n.id)).Nodup
        rw [ids_ensureInitial]
        exact hstore
      | some info =>
        show ((ensureInitial entity (ensureInitial entity store.nodes)).map
          (fun n => n.id)).Nodup
        rw [ids_ensureInitial, ids_ensureInitial]
        exact hstore
    | some recs =>
      cases dei with
      | none =>
        show ((ensureInitial entity
          (applyIncrementalNodes place store.nodes recs)).map (fun n => n.id)).Nodup
        rw [ids_ensureInitial]
        exact key store.nodes recs hstore hbatch
      | some info =>
        show ((ensureInitial entity
          (applyIncrementalNodes place (ensureInitial entity store.nodes)
            (preprocessNodes info recs))).map (fun n => n.id)).Nodup
        rw [ids_ensureInitial]
        refine key _ _ ?_ ?_
        · rw [ids_ensureInitial]
          exact hstore
        · rw [ids_preprocessNodes]
          exact hbatch

/-- C2 counterexample: a single incremental batch whose two records share the
id `a`, applied to the empty store, leaves two nodes with the same id — the
seen-id set is snapshotted before the loop, so uniqueness is not as claimed. -/
theorem claim_C2_counterexample :
    ([batchDupIds].foldl (updateGraph iplace "") (Store.empty Int)).nodes.map
        (fun n => n.id) = ["a", "a"] ∧
      ¬ (([batchDupIds].foldl (updateGraph iplace "") (Store.empty Int)).nodes.map
        (fun n => n.id)).Nodup := by
  constructor
  · rfl
  · decide

/-- C2 as amended.  Identity uniqueness holds for every sequence of incremental
update calls starting from the empty store **provided each batch's node records
carry pairwise-distinct ids**: then no two store nodes ever share an id. -/
theorem claim_C2_identity_uniqueness (place : Nat → Nat → α × α) (entity : String)
    (batches : List Batch)
    (hb : ∀ b ∈ batches, (((b.nodes).getD []).map (fun r => r.id)).Nodup) :
    ((batches.foldl (updateGraph place entity) (Store.empty α)).nodes.map
      (fun n => n.id)).Nodup := by
  suffices key : ∀ (bs : List Batch) (store : Store α),
      (store.nodes.map (fun n => n.id)).Nodup →
      (∀ b ∈ bs, (((b.nodes).getD []).map (fun r => r.id)).Nodup) →
      ((bs.foldl (updateGraph place entity) store).nodes.map (fun n => n.id)).Nodup by
    exact key batches (Store.empty α) (by simp [Store.empty]) hb
  intro bs
  induction bs with
  | nil => intro store h _; exact h
  | cons b rest ih =>
    intro store hstore hbs
    rw [List.foldl_cons]
    exact ih (updateGraph place entity store b)
      (updateGraph_nodup_ids place entity store b hstore (hbs b (by simp)))
      (fun b2 hb2 => hbs b2 (List.mem_cons_of_mem b hb2))

/-- Witness for the amended C2 at a concrete batch sequence. -/
theorem claim_C2_identity_uniqueness_witness :
    (∀ b ∈ [batchSelfLoop], (((b.nodes).getD []).map (fun r => r.id)).Nodup) ∧
      ((([batchSelfLoop].foldl (updateGraph iplace "") (Store.empty Int))).nodes.map
        (fun n => n.id)).Nodup :=
  ⟨by decide, claim_C2_identity_uniqueness iplace "" [batchSelfLoop] (by decide)⟩

/-! ## C6: seed promotion -/

theorem healOrderNode_sound (m : StoreNode α)
    (h : orderNonneg (healOrderNode m).expansion_order = true) :
    statusNormalish (healOrderNode m).expansion_status = false := by
  unfold healOrderNode at h ⊢
  by_cases hc : (orderNonneg m.expansion_order && statusNormalish m.expansion_status) = true
  · rw [if_pos hc] at h ⊢
    rfl
  · rw [if_neg hc] at h ⊢
    by_cases hb : statusNormalish m.expansion_status = true
    · exact absurd (by rw [Bool.and_eq_true]; exact ⟨h, hb⟩) hc
    · simpa using hb

/-- C6 counterexample: both claim hypotheses hold — no node has a non-normal
expansion status, and the initial entity `B` equals node `b`'s name — yet after
the self-heal pass `b` is *not* promoted, because the stray `expansion_order = 0`
on node `a` wins the initial-node search. -/
theorem claim_C6_counterexample :
    (∀ n ∈ [exampleNode "a" "A" "normal" (some 0),
        exampleNode "b" "B" "normal" none], n.expansion_status = "normal") ∧
      (∃ n ∈ [exampleNode "a" "A" "normal" (some 0),
        exampleNode "b" "B" "normal" none], n.name = "B") ∧
      ¬ (∀ n ∈ ensureInitial "B" [exampleNode "a" "A" "normal" (some 0),
          exampleNode "b" "B" "normal" none],
          n.name = "B" → n.expansion_status = "expansion" ∧
            n.expansion_order = some 0) := by
  refine ⟨by decide, by decide, ?_⟩
  intro hall
  have := hall (exampleNode "b" "B" "normal" none) (by decide) (by decide)
  exact absurd this.1 (by decide)

/-- C6 as amended.  Seed promotion: if every node's expansion status is
normal/blank, no node carries `expansion_order = 0`, and a non-blank initial
entity's **first matching node** (exact id/name equality or substring containment
in either direction) sits at position `j`, then after
`ensureInitialNodeExpansionStatus` the node at `j` has
`expansion_status = 'expansion'` and `expansion_order = 0`; moreover every node
with a defined numeric `expansion_order ≥ 0` ends with a non-normal status. -/
theorem claim_C6_seed_promotion (entity : String) (nodes : List (StoreNode α))
    (j : Nat)
    (h2 : ∀ n ∈ nodes, statusNormalish n.expansion_status = true)
    (h3 : ∀ n ∈ nodes, n.expansion_order ≠ some 0)
    (h4 : entity ≠ "")
    (h5 : findIdxO (fun n =>
      n.name = entity || n.id = entity ||
      jsIncludes n.name entity || jsIncludes entity n.name) nodes = some j) :
    (∃ v, (ensureInitial entity nodes).get? j = some v ∧
        v.expansion_status = "expansion" ∧ v.expansion_order = some 0) ∧
      ∀ n ∈ ensureInitial entity nodes,
        orderNonneg n.expansion_order = true →
          statusNormalish n.expansion_status = false := by
  have hjn : j < nodes.length := findIdxO_lt _ nodes j h5
  have hm1 : findIdxO (fun n => n.expansion_order = some 0) nodes = none := by
    rw [findIdxO_eq_none_iff]
    intro n hn
    exact decide_eq_false (h3 n hn)
  have hfi : findInitialIdx entity nodes = j := by
    unfold findInitialIdx
    rw [hm1, if_neg h4, h5]
  have hne : ¬ nodes.isEmpty := by
    cases nodes with
    | nil => cases hjn
    | cons a as => simp
  constructor
  · have hnorm : statusNormalish (nodes.get ⟨j, hjn⟩).expansion_status = true :=
      h2 _ (nodes.get_mem j hjn)
    have hp : promoteNode (nodes.get ⟨j, hjn⟩) =
        { nodes.get ⟨j, hjn⟩ with
          expansion_status := "expansion", expansion_order := some 0 } := by
      unfold promoteNode
      rw [if_pos hnorm]
    have hq := ensureInitial_getq entity nodes j
    rw [List.get?_eq_get hjn] at hq
    simp only [Option.map_some'] at hq
    rw [hfi, if_pos rfl, hp] at hq
    refine ⟨_, hq, ?_, ?_⟩ <;>
      simp [healOrderNode, statusNormalish, orderNonneg]
  · intro n hn hord
    unfold ensureInitial at hn
    rw [if_neg hne] at hn
    unfold selfHealOrders at hn
    obtain ⟨m, _, rfl⟩ := List.mem_map.mp hn
    exact healOrderNode_sound m hord

/-- Witness for the amended C6 at a concrete one-node store. -/
theorem claim_C6_seed_promotion_witness :
    (("B" : String) ≠ "") ∧
      ((∃ v, (ensureInitial "B" [exampleNode "b" "B" "normal" none]).get? 0 = some v ∧
          v.expansion_status = "expansion" ∧ v.expansion_order = some 0) ∧
        ∀ n ∈ ensureInitial "B" [exampleNode "b" "B" "normal" none],
          orderNonneg n.expansion_order = true →
            statusNormalish n.expansion_status = false) :=
  ⟨by decide,
    claim_C6_seed_promotion "B" [exampleNode "b" "B" "normal" none] 0
      (by decide) (by decide) (by decide) (by decide)⟩

/-! ## C5: link validity -/

theorem resolveKey_mem (nodes : List PNode) (key s : String)
    (h : resolveKey nodes key = some s) : ∃ n ∈ nodes, n.id = s := by
  unfold resolveKey at h
  cases hd : nameToId nodes key with
  | none =>
    simp only [hd] at h
    rw [Option.map_eq_some'] at h
    obtain ⟨n, hf, rfl⟩ := h
    exact ⟨n, List.mem_of_find?_eq_some hf, rfl⟩
  | some i =>
    simp only [hd] at h
    by_cases hi : i = ""
    · rw [if_pos hi] at h
      rw [Option.map_eq_some'] at h
      obtain ⟨n, hf, rfl⟩ := h
      exact ⟨n, List.mem_of_find?_eq_some hf, rfl⟩
    · rw [if_neg hi] at h
      injection h with h2
      subst h2
      unfold nameToId at hd
      rw [Option.map_eq_some'] at hd
      obtain ⟨n, hf, rfl⟩ := hd
      exact ⟨n, List.mem_reverse.mp (List.mem_of_find?_eq_some hf), rfl⟩

/-- C5 counterexample: `updateGraph` stores a self-loop (`a → a`) untouched —
the single-run store performs no endpoint-validity or self-loop filtering, so
"self-loops are dropped" is false for the store. -/
theorem claim_C5_counterexample :
    (updateGraph iplace "" (Store.empty Int) batchSelfLoop).links.map
        (fun l => (l.source, l.target)) = [("a", "a")] ∧
      ¬ (∀ l ∈ (updateGraph iplace "" (Store.empty Int) batchSelfLoop).links,
          l.source ≠ l.target) := by
  exact ⟨rfl, by decide⟩

/-- C5 as amended.  Link validity holds in the run-preview resolver: every link
it keeps references two node ids that exist among the preview nodes and are
distinct (self-loops and unresolved links are dropped there).  In the
single-run store, `updateGraph` deduplicates by derived id only against the
links already in the store (every stored link is either an old link or has a
derived id that was previously unseen); it does not drop self-loops or links
with unknown endpoints — those are only filtered from the render set. -/
theorem claim_C5_link_validity :
    (∀ (nodes : List PNode) (rels : List RelRec),
        ∀ l ∈ displayLinksOfRels nodes rels,
          (∃ n ∈ nodes, n.id = l.source) ∧ (∃ n ∈ nodes, n.id = l.target) ∧
            l.source ≠ l.target) ∧
      (∀ (links : List StoreLink) (recs : List LinkRec),
        ∀ l ∈ applyIncrementalLinks links recs,
          l ∈ links ∨ l.id ∉ links.map (fun x => x.id)) := by
  constructor
  · intro nodes rels l hl
    unfold displayLinksOfRels at hl
    rw [List.mem_filterMap] at hl
    obtain ⟨rel, _, hres⟩ := hl
    unfold resolveRelFinal at hres
    rw [Option.map_eq_some'] at hres
    obtain ⟨l0, hres0, rfl⟩ := hres
    unfold resolveRel at hres0
    dsimp only [] at hres0
    split at hres0
    · cases hres0
    · split at hres0
      · rename_i s t hks hkt
        split at hres0
        · rename_i hcond
          cases hres0
          exact ⟨resolveKey_mem nodes _ s hks, resolveKey_mem nodes _ t hkt,
            hcond.2.2⟩
        · cases hres0
      · cases hres0
  · intro links recs l hl
    have key : ∀ (E : List String) (ps : List StoreLink) (acc : List StoreLink)
        (l : StoreLink), l ∈ ps.foldl (linkStep E) acc → l ∈ acc ∨ l.id ∉ E := by
      intro E ps
      induction ps with
      | nil => intro acc l hl; exact Or.inl hl
      | cons p rest ih =>
        intro acc l hl
        rw [List.foldl_cons] at hl
        rcases ih (linkStep E acc p) l hl with hmem | hout
        · unfold linkStep at hmem
          split at hmem
          · exact Or.inl hmem
          · rcases List.mem_append.mp hmem with h1 | h2
            · exact Or.inl h1
            · rename_i hnot
              rw [List.mem_singleton.mp h2]
              exact Or.inr hnot
        · exact Or.inr hout
    unfold applyIncrementalLinks at hl
    exact key (links.map (fun x => x.id)) (recs.map processLink) links l hl

/-- Witness for the amended C5: the processed self-loop link is stored by
`applyIncrementalLinks` on an empty link set, and the theorem classifies it. -/
theorem claim_C5_link_validity_witness :
    (processLink selfLoopRec ∈ applyIncrementalLinks [] [selfLoopRec]) ∧
      (processLink selfLoopRec ∈ ([] : List StoreLink) ∨
        (processLink selfLoopRec).id ∉ ([] : List StoreLink).map (fun x => x.id)) :=
  ⟨by decide,
    claim_C5_link_validity.2 [] [selfLoopRec] (processLink selfLoopRec) (by decide)⟩

/-! ## C9: chain fallback -/

/-- C9 counterexample: with 12 nodes and no resolvable relationship the chain
fallback produces only `min (12-1) 10 = 10` links, not the `n-1 = 11` links the
claim requires. -/
theorem claim_C9_counterexample :
    displayLinksOfRels twelveNodes [] = [] ∧
      twelveNodes.length = 12 ∧
      (previewLinks twelveNodes []).length = 10 ∧
      (previewLinks twelveNodes []).length ≠ twelveNodes.length - 1 := by
  refine ⟨rfl, rfl, rfl, by decide⟩

/-- C9 as amended.  Chain fallback: whenever link resolution leaves zero links
while at least 2 nodes exist, the synthetic chain links node `i` to node `i+1`
for `i < min (n-1) 10` — i.e. it produces exactly `min (n-1) 10` consecutive
links (the loop is capped at 10), covering every adjacent pair only when
`n ≤ 11`.  (The preview flags these links as randomly generated demo data in
the side panel.) -/
theorem claim_C9_chain_fallback (nodes : List PNode) (rels : List RelRec)
    (hempty : displayLinksOfRels nodes rels = []) (h2 : 2 ≤ nodes.length) :
    (previewLinks nodes rels).length = min (nodes.length - 1) 10 ∧
      ∀ i, i < min (nodes.length - 1) 10 →
        ((previewLinks nodes rels).get? i).map (fun l => (l.source, l.target)) =
          (nodes.get? i).bind (fun a => (nodes.get? (i + 1)).map (fun b => (a.id, b.id))) := by
  have hpl : previewLinks nodes rels = chainFallback nodes := by
    unfold previewLinks
    rw [hempty]
    rw [if_pos ⟨rfl, by omega⟩]
  rw [hpl]
  have hlen : (chainFallback nodes).length = min (nodes.length - 1) 10 := by
    unfold chainFallback
    rw [List.length_map, List.length_take, List.length_zip, List.length_tail]
    omega
  refine ⟨hlen, ?_⟩
  intro i hi
  have hi1 : i < nodes.length - 1 := lt_of_lt_of_le hi (min_le_left _ _)
  have hi10 : i < 10 := lt_of_lt_of_le hi (min_le_right _ _)
  have hiz : i < (nodes.zip nodes.tail).length := by
    rw [List.length_zip, List.length_tail]
    omega
  have hin : i < nodes.length := by omega
  have hit : i < nodes.tail.length := by rw [List.length_tail]; omega
  unfold chainFallback
  rw [List.get?_eq_getElem?, List.getElem?_map, List.getElem?_take_of_lt hi10]
  have hzip : (nodes.zip nodes.tail)[i]? = some (nodes[i], nodes.tail[i]) := by
    rw [← List.get?_eq_getElem?, List.get?_zip_eq_some]
    constructor <;> rw [List.get?_eq_getElem?, List.getElem?_eq_getElem]
  rw [hzip]
  have htail : nodes.tail[i] = nodes[i + 1] := List.getElem_tail nodes i hit
  have hs1 : nodes.get? i = some nodes[i] := by
    rw [List.get?_eq_getElem?, List.getElem?_eq_getElem]
  have hs2 : nodes.get? (i + 1) = some nodes[i + 1] := by
    rw [List.get?_eq_getElem?, List.getElem?_eq_getElem]
  rw [hs1, hs2, htail]
  rfl

/-- Witness for the amended C9 on a 12-node list with no relationships. -/
theorem claim_C9_chain_fallback_witness :
    displayLinksOfRels twelveNodes [] = [] ∧ 2 ≤ twelveNodes.length ∧
      ((previewLinks twelveNodes []).length = min (twelveNodes.length - 1) 10 ∧
        ∀ i, i < min (twelveNodes.length - 1) 10 →
          ((previewLinks twelveNodes []).get? i).map (fun l => (l.source, l.target)) =
            (twelveNodes.get? i).bind
              (fun a => (twelveNodes.get? (i + 1)).map (fun b => (a.id, b.id)))) :=
  ⟨rfl, by decide, claim_C9_chain_fallback twelveNodes [] rfl (by decide)⟩

/-! ## C7: highlight reset -/

theorem overlayNodeStyle_irrel (snids : List String) (d : StoreNode α)
    (p p2 : NodeStyle) : overlayNodeStyle snids d p = overlayNodeStyle snids d p2 := rfl

theorem overlayLinkStyle_irrel (cids : List String) (l : StoreLink)
    (p p2 : LinkStyle) : overlayLinkStyle cids l p = overlayLinkStyle cids l p2 := rfl

theorem zipWith_right_irrel (f : β → γ → δ) (l : List β)
    (hf : ∀ x y y2, f x y = f x y2) :
    ∀ (p p2 : List γ), p.length = p2.length →
      List.zipWith f l p = List.zipWith f l p2 := by
  induction l with
  | nil => intro p p2 _; rfl
  | cons a as ih =>
    intro p p2 hlen
    cases p with
    | nil =>
      cases p2 with
      | nil => rfl
      | cons c cs => cases hlen
    | cons b bs =>
      cases p2 with
      | nil => cases hlen
      | cons c cs =>
        simp only [List.zipWith_cons_cons]
        rw [hf a b c, ih bs cs (by simpa using hlen)]

theorem of_mem_zipWith (f : β → γ → δ) :
    ∀ (l : List β) (p : List γ) (s : δ), s ∈ List.zipWith f l p →
      ∃ x y, s = f x y := by
  intro l
  induction l with
  | nil => intro p s hs; cases hs
  | cons a as ih =>
    intro p s hs
    cases p with
    | nil => cases hs
    | cons b bs =>
      rw [List.zipWith_cons_cons] at hs
      rcases List.mem_cons.mp hs with h1 | h2
      · exact ⟨a, b, h1⟩
      · exact ih bs s h2

theorem connectedLinkIdSet_empty (links : List StoreLink) :
    connectedLinkIdSet links [] [] = [] := by
  unfold connectedLinkIdSet
  rw [List.nil_append]
  induction links with
  | nil => rfl
  | cons l rest ih => simp [ih]

/-- C7 counterexample: on a one-node store, highlighting with `S = {a}` and
then with the empty set does *not* restore the render baseline — the empty-set
call leaves the node dimmed (opacity 0.4, stroke width 1px), while the baseline
has full opacity. -/
theorem claim_C7_counterexample :
    overlayState exStore1 [] []
        (overlayState exStore1 [{ id := "a" }] [] (renderBaseline exStore1)) ≠
      renderBaseline exStore1 := by
  decide

/-- C7 as amended.  The overlay is memoryless: styles after calling it with `S`
and then with the empty set equal the styles after a single empty-set call from
any style state (highlighting is derived fresh from the store, never
accumulated).  However, the empty-set call yields the dimmed tier — every node
at opacity 0.4 with a 1px stroke and every link at opacity 0.3 with width 1 —
not the baseline of a store that was only rendered. -/
theorem claim_C7_highlight_reset (store : Store α) (sn : List SampledNodeRef)
    (sl : List SampledLinkRef) (p1 p2 : StyleState)
    (h1n : p1.nodeStyles.length = store.nodes.length)
    (h1l : p1.linkStyles.length = store.links.length)
    (h2n : p2.nodeStyles.length = store.nodes.length)
    (h2l : p2.linkStyles.length = store.links.length) :
    overlayState store [] [] (overlayState store sn sl p1) =
        overlayState store [] [] p2 ∧
      (∀ s ∈ (overlayState store [] [] p2).nodeStyles,
        s.opacity = 0.4 ∧ s.strokeWidth = "1px") ∧
      (∀ s ∈ (overlayState store [] [] p2).linkStyles,
        s.opacity = 0.3 ∧ s.strokeWidth = 1) := by
  refine ⟨?_, ?_, ?_⟩
  · unfold overlayState
    simp only [StyleState.mk.injEq]
    constructor
    · apply zipWith_right_irrel _ _ (fun x y y2 => overlayNodeStyle_irrel _ x y y2)
      rw [List.length_zipWith, h1n, h2n, min_self]
    · apply zipWith_right_irrel _ _ (fun x y y2 => overlayLinkStyle_irrel _ x y y2)
      rw [List.length_zipWith, h1l, h2l, min_self]
  · intro s hs
    unfold overlayState at hs
    obtain ⟨d, y, rfl⟩ := of_mem_zipWith _ _ _ s hs
    unfold overlayNodeStyle classifyNodeStyle
    rw [if_neg (by simp [sampledNodeIdSet])]
    exact ⟨rfl, rfl⟩
  · intro s hs
    unfold overlayState at hs
    obtain ⟨l, y, rfl⟩ := of_mem_zipWith _ _ _ s hs
    have hempty : connectedLinkIdSet store.links (sampledNodeIdSet [])
        (sampledLinkIdSet []) = [] := connectedLinkIdSet_empty store.links
    unfold overlayLinkStyle classifyLinkStyle
    rw [hempty]
    rw [if_neg (by simp)]
    exact ⟨rfl, rfl⟩

/-- Witness for the amended C7 on the one-node store. -/
theorem claim_C7_highlight_reset_witness :
    ((renderBaseline exStore1).nodeStyles.length = exStore1.nodes.length) ∧
      (overlayState exStore1 [] []
          (overlayState exStore1 [{ id := "a" }] [] (renderBaseline exStore1)) =
          overlayState exStore1 [] [] (renderBaseline exStore1) ∧
        (∀ s ∈ (overlayState exStore1 [] [] (renderBaseline exStore1)).nodeStyles,
          s.opacity = 0.4 ∧ s.strokeWidth = "1px") ∧
        (∀ s ∈ (overlayState exStore1 [] [] (renderBaseline exStore1)).linkStyles,
          s.opacity = 0.3 ∧ s.strokeWidth = 1)) :=
  ⟨by decide,
    claim_C7_highlight_reset exStore1 [{ id := "a" }] [] _ _
      (by decide) (by decide) (by decide) (by decide)⟩

/-! ## C10: direction-insensitive highlight matching -/

theorem classify_sampled_of_mem (cids : List String) (s t : String)
    (prev : LinkStyle)
    (h : (s ++ "-" ++ t) ∈ cids ∨ (t ++ "-" ++ s) ∈ cids) :
    (classifyLinkStyle cids s t prev).sampled = true := by
  unfold classifyLinkStyle
  rw [if_pos h]

/-- C10.  Direction-insensitive highlight matching: for every sampled endpoint
pair `(s, t)` (both truthy), both the stored orientation `s→t` and the reversed
`t→s` are classified as highlighted; likewise every stored link touching a
sampled node is classified as highlighted in both orientations, regardless of
which endpoint is the sampled one. -/
theorem claim_C10_undirected_highlight (storeLinks : List StoreLink)
    (sn : List SampledNodeRef) (sl : List SampledLinkRef) (prev : LinkStyle) :
    (∀ lr ∈ sl, jsOrS lr.source_id lr.source ≠ "" →
      jsOrS lr.target_id lr.target ≠ "" →
      (classifyLinkStyle
          (connectedLinkIdSet storeLinks (sampledNodeIdSet sn) (sampledLinkIdSet sl))
          (jsOrS lr.source_id lr.source) (jsOrS lr.target_id lr.target)
          prev).sampled = true ∧
        (classifyLinkStyle
          (connectedLinkIdSet storeLinks (sampledNodeIdSet sn) (sampledLinkIdSet sl))
          (jsOrS lr.target_id lr.target) (jsOrS lr.source_id lr.source)
          prev).sampled = true) ∧
      (∀ l ∈ storeLinks,
        (jsOrS l.source_id l.source ∈ sampledNodeIdSet sn ∨
          jsOrS l.target_id l.target ∈ sampledNodeIdSet sn) →
        (classifyLinkStyle
          (connectedLinkIdSet storeLinks (sampledNodeIdSet sn) (sampledLinkIdSet sl))
          (jsOrS l.source_id l.source) (jsOrS l.target_id l.target)
          prev).sampled = true ∧
        (classifyLinkStyle
          (connectedLinkIdSet storeLinks (sampledNodeIdSet sn) (sampledLinkIdSet sl))
          (jsOrS l.target_id l.target) (jsOrS l.source_id l.source)
          prev).sampled = true) := by
  constructor
  · intro lr hmem hs ht
    have hin : (jsOrS lr.source_id lr.source ++ "-" ++ jsOrS lr.target_id lr.target)
          ∈ sampledLinkIdSet sl ∧
        (jsOrS lr.target_id lr.target ++ "-" ++ jsOrS lr.source_id lr.source)
          ∈ sampledLinkIdSet sl := by
      unfold sampledLinkIdSet
      constructor <;>
        · rw [List.mem_flatMap]
          exact ⟨lr, hmem, by rw [if_pos ⟨hs, ht⟩]; simp⟩
    constructor
    · refine classify_sampled_of_mem _ _ _ prev (Or.inl ?_)
      unfold connectedLinkIdSet
      exact List.mem_append_left _ hin.1
    · refine classify_sampled_of_mem _ _ _ prev (Or.inl ?_)
      unfold connectedLinkIdSet
      exact List.mem_append_left _ hin.2
  · intro l hmem htouch
    have hin : (jsOrS l.source_id l.source ++ "-" ++ jsOrS l.target_id l.target)
          ∈ connectedLinkIdSet storeLinks (sampledNodeIdSet sn) (sampledLinkIdSet sl) ∧
        (jsOrS l.target_id l.target ++ "-" ++ jsOrS l.source_id l.source)
          ∈ connectedLinkIdSet storeLinks (sampledNodeIdSet sn) (sampledLinkIdSet sl) := by
      unfold connectedLinkIdSet
      constructor <;>
        · refine List.mem_append_right _ ?_
          rw [List.mem_flatMap]
          exact ⟨l, hmem, by rw [if_pos htouch]; simp⟩
    exact ⟨classify_sampled_of_mem _ _ _ prev (Or.inl hin.1),
      classify_sampled_of_mem _ _ _ prev (Or.inl hin.2)⟩

/-- Witness for C10 on a concrete sampled pair and a concrete touching link. -/
theorem claim_C10_undirected_highlight_witness :
    (jsOrS ("" : String) "a" ≠ "") ∧
      ((classifyLinkStyle
          (connectedLinkIdSet [processLink selfLoopRec] (sampledNodeIdSet [])
            (sampledLinkIdSet [{ source := "a", target := "b" }]))
          (jsOrS "" "a") (jsOrS "" "b") defaultLinkStyle).sampled = true ∧
        (classifyLinkStyle
          (connectedLinkIdSet [processLink selfLoopRec] (sampledNodeIdSet [])
            (sampledLinkIdSet [{ source := "a", target := "b" }]))
          (jsOrS "" "b") (jsOrS "" "a") defaultLinkStyle).sampled = true) :=
  ⟨by decide,
    (claim_C10_undirected_highlight [processLink selfLoopRec] []
        [{ source := "a", target := "b" }] defaultLinkStyle).1
      { source := "a", target := "b" } (by decide) (by decide) (by decide)⟩

/-! ## C8: viewport fit -/

theorem foldl_min_le_seed (l : List ℚ) (a : ℚ) : l.foldl min a ≤ a := by
  induction l generalizing a with
  | nil => exact le_refl a
  | cons b bs ih => exact le_trans (ih (min a b)) (min_le_left a b)

theorem foldl_min_le_mem (l : List ℚ) (a b : ℚ) (h : b ∈ l) : l.foldl min a ≤ b := by
  induction l generalizing a with
  | nil => cases h
  | cons c cs ih =>
    rcases List.mem_cons.mp h with h1 | h2
    · subst h1
      exact le_trans (foldl_min_le_seed cs (min a b)) (min_le_right a b)
    · exact ih (min a c) h2

theorem seed_le_foldl_max (l : List ℚ) (a : ℚ) : a ≤ l.foldl max a := by
  induction l generalizing a with
  | nil => exact le_refl a
  | cons b bs ih => exact le_trans (le_max_left a b) (ih (max a b))

theorem mem_le_foldl_max (l : List ℚ) (a b : ℚ) (h : b ∈ l) : b ≤ l.foldl max a := by
  induction l generalizing a with
  | nil => cases h
  | cons c cs ih =>
    rcases List.mem_cons.mp h with h1 | h2
    · subst h1
      exact le_trans (le_max_right a b) (seed_le_foldl_max cs (max a b))
    · exact ih (max a c) h2

theorem qmin_le_of_mem (l : List ℚ) (b : ℚ) (h : b ∈ l) : qmin l ≤ b := by
  cases l with
  | nil => cases h
  | cons a as =>
    rcases List.mem_cons.mp h with h1 | h2
    · subst h1
      exact foldl_min_le_seed as b
    · exact foldl_min_le_mem as a b h2

theorem le_qmax_of_mem (l : List ℚ) (b : ℚ) (h : b ∈ l) : b ≤ qmax l := by
  cases l with
  | nil => cases h
  | cons a as =>
    rcases List.mem_cons.mp h with h1 | h2
    · subst h1
      exact seed_le_foldl_max as b
    · exact mem_le_foldl_max as a b h2

theorem getNodeRadius_ge (links : List StoreLink) (n : StoreNode ℚ) :
    25 ≤ getNodeRadius links n := by
  unfold getNodeRadius
  have : (0 : ℚ) ≤ min ((((links.filter (fun l =>
      jsOrS l.source_id l.source = n.id || jsOrS l.target_id l.target = n.id)).length : ℚ)) * 2) 15 :=
    le_min (by positivity) (by norm_num)
  linarith

theorem bbox_bounds (links : List StoreLink) (nodes : List (StoreNode ℚ))
    (n : StoreNode ℚ) (hn : n ∈ nodes) :
    bboxMinX links nodes ≤ n.x - getNodeRadius links n ∧
      n.x + getNodeRadius links n ≤ bboxMaxX links nodes ∧
      bboxMinY links nodes ≤ n.y - getNodeRadius links n ∧
      n.y + getNodeRadius links n ≤ bboxMaxY links nodes :=
  ⟨qmin_le_of_mem _ _ (List.mem_map_of_mem _ hn),
   le_qmax_of_mem _ _ (List.mem_map_of_mem _ hn),
   qmin_le_of_mem _ _ (List.mem_map_of_mem _ hn),
   le_qmax_of_mem _ _ (List.mem_map_of_mem _ hn)⟩

/-- C8 counterexample: `fitView` on two nodes at `(500,300)`/`(600,300)` in a
1200×800 container computes scale `3/2`, upscaling past 1× — the claim's
"largest value ≤ 1" does not hold for the fit-to-view control, whose cap is 1.5. -/
theorem claim_C8_counterexample :
    fitViewScale [exqNode 500 300, exqNode 600 300] 1200 800 = 3 / 2 ∧
      ¬ (fitViewScale [exqNode 500 300, exqNode 600 300] 1200 800 ≤ 1) := by
  have h : fitViewScale [exqNode 500 300, exqNode 600 300] 1200 800 = 3 / 2 := by
    norm_num [fitViewScale, qmin, qmax, exqNode, min_def, max_def]
  exact ⟨h, by rw [h]; norm_num⟩

/-- C8 as amended.  The viewBox fitter `adjustViewBox` realises the claim: for
a non-empty node set in a positive container it returns a transform whose scale
is positive, at most 1, and the largest value ≤ 1 fitting the margin-and-radius
expanded bounding box; the viewBox maps exactly onto the container
(`vbW·scale = cw`, `vbH·scale = ch`), every node's padded circle lands inside
the container under that mapping, and the box centre lands on the container
centre.  Zero nodes yield an early return (`none`).  The `fitView` control,
however, caps its scale at 1.5 (not 1) — its only guarantee is `scale ≤ 3/2`. -/
theorem claim_C8_viewport_fit (links : List StoreLink) (nodes : List (StoreNode ℚ))
    (cw ch : ℚ) (hcw : 0 < cw) (hch : 0 < ch) (hne : nodes ≠ []) :
    (∃ r, adjustViewBox links nodes cw ch = some r ∧
      0 < r.scale ∧ r.scale ≤ 1 ∧
      (∀ s : ℚ, s ≤ 1 → s * graphWidth links nodes ≤ cw →
        s * graphHeight links nodes ≤ ch → s ≤ r.scale) ∧
      r.vbW * r.scale = cw ∧ r.vbH * r.scale = ch ∧
      (∀ n ∈ nodes,
        0 ≤ (n.x - getNodeRadius links n - 100 - r.vbX) * r.scale ∧
          (n.x + getNodeRadius links n + 100 - r.vbX) * r.scale ≤ cw ∧
          0 ≤ (n.y - getNodeRadius links n - 100 - r.vbY) * r.scale ∧
          (n.y + getNodeRadius links n + 100 - r.vbY) * r.scale ≤ ch) ∧
      ((bboxMinX links nodes + bboxMaxX links nodes) / 2 - r.vbX) * r.scale = cw / 2 ∧
      ((bboxMinY links nodes + bboxMaxY links nodes) / 2 - r.vbY) * r.scale = ch / 2) ∧
      adjustViewBox links [] cw ch = none ∧
      (∀ (nodes2 : List (StoreNode ℚ)) (cw2 ch2 : ℚ),
        fitViewScale nodes2 cw2 ch2 ≤ 3 / 2) := by
  obtain ⟨n0, hn0⟩ : ∃ n, n ∈ nodes := by
    cases nodes with
    | nil => cases hne rfl
    | cons a as => exact ⟨a, by simp⟩
  have hne2 : ¬ nodes.isEmpty := by
    cases nodes with
    | nil => cases hne rfl
    | cons a as => simp
  have hrad0 := getNodeRadius_ge links n0
  have hb0 := bbox_bounds links nodes n0 hn0
  have hgw : 0 < graphWidth links nodes := by
    unfold graphWidth
    have h1 := hb0.1
    have h2 := hb0.2.1
    linarith
  have hgh : 0 < graphHeight links nodes := by
    unfold graphHeight
    have h1 := hb0.2.2.1
    have h2 := hb0.2.2.2
    linarith
  set gw := graphWidth links nodes with hgwdef
  set gh := graphHeight links nodes with hghdef
  set S := min (cw / gw) (min (ch / gh) 1) with hSdef
  set vbW := max gw (cw / S) with hvbWdef
  set vbH := max gh (ch / S) with hvbHdef
  set mnX := bboxMinX links nodes with hmnXdef
  set mxX := bboxMaxX links nodes with hmxXdef
  set mnY := bboxMinY links nodes with hmnYdef
  set mxY := bboxMaxY links nodes with hmxYdef
  have hSpos : 0 < S :=
    lt_min (div_pos hcw hgw) (lt_min (div_pos hch hgh) one_pos)
  have hS1 : S ≤ 1 := le_trans (min_le_right _ _) (min_le_right _ _)
  have hSgw : S * gw ≤ cw := by
    have := min_le_left (cw / gw) (min (ch / gh) 1)
    rw [← hSdef] at this
    calc S * gw ≤ (cw / gw) * gw := mul_le_mul_of_nonneg_right this (le_of_lt hgw)
    _ = cw := div_mul_cancel₀ cw (ne_of_gt hgw)
  have hSgh : S * gh ≤ ch := by
    have h1 : S ≤ ch / gh :=
      le_trans (min_le_right (cw / gw) _) (min_le_left (ch / gh) 1)
    calc S * gh ≤ (ch / gh) * gh := mul_le_mul_of_nonneg_right h1 (le_of_lt hgh)
    _ = ch := div_mul_cancel₀ ch (ne_of_gt hgh)
  have hvbWS : vbW * S = cw := by
    rw [hvbWdef, max_mul_of_nonneg _ _ (le_of_lt hSpos),
      div_mul_cancel₀ cw (ne_of_gt hSpos)]
    exact max_eq_right (by linarith [hSgw, mul_comm S gw])
  have hvbHS : vbH * S = ch := by
    rw [hvbHdef, max_mul_of_nonneg _ _ (le_of_lt hSpos),
      div_mul_cancel₀ ch (ne_of_gt hSpos)]
    exact max_eq_right (by linarith [hSgh, mul_comm S gh])
  have hgwvbW : gw ≤ vbW := le_max_left _ _
  have hghvbH : gh ≤ vbH := le_max_left _ _
  have hgweq : gw = mxX - mnX + 200 := rfl
  have hgheq : gh = mxY - mnY + 200 := rfl
  have hsome : adjustViewBox links nodes cw ch =
      some { scale := S, vbX := (mnX + mxX) / 2 - vbW / 2
             vbY := (mnY + mxY) / 2 - vbH / 2, vbW := vbW, vbH := vbH } := by
    unfold adjustViewBox
    rw [if_neg hne2]
  refine ⟨⟨_, hsome, hSpos, hS1, ?_, hvbWS, hvbHS, ?_, ?_, ?_⟩, ?_, ?_⟩
  · intro s hs1 hsgw hsgh
    exact le_min ((le_div_iff hgw).mpr hsgw) (le_min ((le_div_iff hgh).mpr hsgh) hs1)
  · intro n hn
    have hb := bbox_bounds links nodes n hn
    have h1 : 0 ≤ n.x - getNodeRadius links n - 100 - ((mnX + mxX) / 2 - vbW / 2) := by
      have := hb.1
      rw [hgweq] at hgwvbW
      linarith
    have h2 : n.x + getNodeRadius links n + 100 - ((mnX + mxX) / 2 - vbW / 2) ≤ vbW := by
      have := hb.2.1
      rw [hgweq] at hgwvbW
      linarith
    have h3 : 0 ≤ n.y - getNodeRadius links n - 100 - ((mnY + mxY) / 2 - vbH / 2) := by
      have := hb.2.2.1
      rw [hgheq] at hghvbH
      linarith
    have h4 : n.y + getNodeRadius links n + 100 - ((mnY + mxY) / 2 - vbH / 2) ≤ vbH := by
      have := hb.2.2.2
      rw [hgheq] at hghvbH
      linarith
    refine ⟨mul_nonneg h1 (le_of_lt hSpos), ?_,
      mul_nonneg h3 (le_of_lt hSpos), ?_⟩
    · calc (n.x + getNodeRadius links n + 100 - ((mnX + mxX) / 2 - vbW / 2)) * S ≤
          vbW * S := mul_le_mul_of_nonneg_right h2 (le_of_lt hSpos)
      _ = cw := hvbWS
    · calc (n.y + getNodeRadius links n + 100 - ((mnY + mxY) / 2 - vbH / 2)) * S ≤
          vbH * S := mul_le_mul_of_nonneg_right h4 (le_of_lt hSpos)
      _ = ch := hvbHS
  · have : (mnX + mxX) / 2 - ((mnX + mxX) / 2 - vbW / 2) = vbW / 2 := by ring
    rw [this]
    rw [show vbW / 2 * S = vbW * S / 2 by ring, hvbWS]
  · have : (mnY + mxY) / 2 - ((mnY + mxY) / 2 - vbH / 2) = vbH / 2 := by ring
    rw [this]
    rw [show vbH / 2 * S = vbH * S / 2 by ring, hvbHS]
  · unfold adjustViewBox
    simp
  · intro nodes2 cw2 ch2
    exact le_trans (min_le_right _ _) (min_le_right _ _)

/-- Witness for the amended C8 on a concrete one-node store. -/
theorem claim_C8_viewport_fit_witness :
    (0 : ℚ) < 1200 ∧ (0 : ℚ) < 800 ∧ [exqNode 500 300] ≠ [] ∧
      (∃ r, adjustViewBox [] [exqNode 500 300] 1200 800 = some r ∧
        0 < r.scale ∧ r.scale ≤ 1 ∧
        (∀ s : ℚ, s ≤ 1 → s * graphWidth [] [exqNode 500 300] ≤ 1200 →
          s * graphHeight [] [exqNode 500 300] ≤ 800 → s ≤ r.scale) ∧
        r.vbW * r.scale = 1200 ∧ r.vbH * r.scale = 800 ∧
        (∀ n ∈ [exqNode 500 300],
          0 ≤ (n.x - getNodeRadius [] n - 100 - r.vbX) * r.scale ∧
            (n.x + getNodeRadius [] n + 100 - r.vbX) * r.scale ≤ 1200 ∧
            0 ≤ (n.y - getNodeRadius [] n - 100 - r.vbY) * r.scale ∧
            (n.y + getNodeRadius [] n + 100 - r.vbY) * r.scale ≤ 800) ∧
        ((bboxMinX [] [exqNode 500 300] + bboxMaxX [] [exqNode 500 300]) / 2 - r.vbX) *
            r.scale = 1200 / 2 ∧
        ((bboxMinY [] [exqNode 500 300] + bboxMaxY [] [exqNode 500 300]) / 2 - r.vbY) *
            r.scale = 800 / 2) ∧
      adjustViewBox [] [] 1200 800 = none ∧
      (∀ (nodes2 : List (StoreNode ℚ)) (cw2 ch2 : ℚ),
        fitViewScale nodes2 cw2 ch2 ≤ 3 / 2) :=
  ⟨by norm_num, by norm_num, by simp,
    claim_C8_viewport_fit [] [exqNode 500 300] 1200 800 (by norm_num) (by norm_num)
      (by simp)⟩

/-! ## C1 toolkit: search, promotion and self-heal algebra -/

theorem findIdxO_eq_some_of (p : β → Bool) (l : List β) (j : Nat)
    (hj : j < l.length) (hpj : p (l.get ⟨j, hj⟩) = true)
    (hb : ∀ k (hk2 : k < l.length), k < j → p (l.get ⟨k, hk2⟩) = false) :
    findIdxO p l = some j := by
  induction l generalizing j with
  | nil => cases hj
  | cons b bs ih =>
    cases j with
    | zero =>
      rw [findIdxO_cons, if_pos (show p b = true from hpj)]
    | succ m =>
      have hb0 : p b = false := hb 0 (by simp) (by omega)
      rw [findIdxO_cons, if_neg (by simp [hb0])]
      rw [ih m (Nat.lt_of_succ_lt_succ hj) hpj
        (fun k hk2 hkm => hb (k + 1) (by simpa using hk2) (by omega))]
      rfl

theorem findIdxO_congr_fac (g : β → γ) (q : γ → Bool) (l l2 : List β)
    (hlen : l.length = l2.length)
    (h : ∀ i, (l.get? i).map g = (l2.get? i).map g) :
    findIdxO (fun b => q (g b)) l = findIdxO (fun b => q (g b)) l2 := by
  refine findIdxO_congr _ _ l l2 hlen (fun i hi hi2 => ?_)
  have := h i
  rw [List.get?_eq_get hi, List.get?_eq_get hi2] at this
  simp only [Option.map_some', Option.some.injEq] at this
  rw [this]

theorem heal_promote (n : StoreNode α) :
    healOrderNode (promoteNode n) = promoteNode n := by
  unfold promoteNode healOrderNode
  by_cases hs : statusNormalish n.expansion_status = true
  · rw [if_pos hs]
    rw [if_neg (by simp [statusNormalish])]
  · rw [if_neg hs]
    rw [if_neg (by simp [hs])]

theorem promote_promote (n : StoreNode α) :
    promoteNode (promoteNode n) = promoteNode n := by
  unfold promoteNode
  by_cases hs : statusNormalish n.expansion_status = true
  · rw [if_pos hs]
    rw [if_neg (by simp [statusNormalish])]
  · rw [if_neg hs, if_neg hs]

theorem healOrder_healOrder (n : StoreNode α) :
    healOrderNode (healOrderNode n) = healOrderNode n := by
  unfold healOrderNode
  by_cases hc : (orderNonneg n.expansion_order && statusNormalish n.expansion_status) = true
  · rw [if_pos hc]
    rw [if_neg (by simp [statusNormalish])]
  · rw [if_neg hc, if_neg hc]

theorem findInitialIdx_lt (e : String) (l : List (StoreNode α)) (hl : l ≠ []) :
    findInitialIdx e l < l.length := by
  unfold findInitialIdx
  cases h1 : findIdxO (fun n => n.expansion_order = some 0) l with
  | some i => exact findIdxO_lt _ l i h1
  | none =>
    cases h2 : (if e = "" then none
        else findIdxO (fun n =>
          n.name = e || n.id = e ||
          jsIncludes n.name e || jsIncludes e n.name) l) with
    | some i =>
      split at h2
      · cases h2
      · exact findIdxO_lt _ l i h2
    | none =>
      cases l with
      | nil => cases hl rfl
      | cons a as => simp

theorem newIds_eq_map_newRecs (E : List String) (recs : List NodeRec) :
    newIds E recs = (newRecs E recs).map (fun r => r.id) := by
  induction recs with
  | nil => rfl
  | cons r rest ih =>
    show (if r.id ∈ E then newIds E rest else r.id :: newIds E rest) =
      (if r.id ∈ E then newRecs E rest else r :: newRecs E rest).map (fun r => r.id)
    split
    · exact ih
    · simp [ih]

theorem mem_of_mem_newRecs (E : List String) (recs : List NodeRec) (r : NodeRec)
    (h : r ∈ newRecs E recs) : r ∈ recs := by
  induction recs with
  | nil => cases h
  | cons r0 rest ih =>
    have hshow : newRecs E (r0 :: rest) =
        if r0.id ∈ E then newRecs E rest else r0 :: newRecs E rest := rfl
    rw [hshow] at h
    split at h
    · exact List.mem_cons_of_mem r0 (ih h)
    · rcases List.mem_cons.mp h with h1 | h2
      · exact h1 ▸ List.mem_cons_self r0 rest
      · exact List.mem_cons_of_mem r0 (ih h2)

theorem id_mem_newIds (E : List String) (recs : List NodeRec) (r : NodeRec)
    (hmem : r ∈ recs) (hout : r.id ∉ E) : r.id ∈ newIds E recs := by
  induction recs with
  | nil => cases hmem
  | cons r0 rest ih =>
    have hshow : newIds E (r0 :: rest) =
        if r0.id ∈ E then newIds E rest else r0.id :: newIds E rest := rfl
    rw [hshow]
    rcases List.mem_cons.mp hmem with h1 | h2
    · subst h1
      rw [if_neg hout]
      exact List.mem_cons_self _ _
    · split
      · exact ih h2
      · exact List.mem_cons_of_mem _ (ih h2)

theorem findInitialIdx_m1 (e : String) (l : List (StoreNode α)) (i : Nat)
    (h : findIdxO (fun n => n.expansion_order = some 0) l = some i) :
    findInitialIdx e l = i := by
  unfold findInitialIdx
  rw [h]

theorem findInitialIdx_m2 (e : String) (l : List (StoreNode α)) (i : Nat)
    (h1 : findIdxO (fun n => n.expansion_order = some 0) l = none)
    (he : e ≠ "")
    (h2 : findIdxO (fun n =>
      n.name = e || n.id = e ||
      jsIncludes n.name e || jsIncludes e n.name) l = some i) :
    findInitialIdx e l = i := by
  unfold findInitialIdx
  rw [h1, if_neg he, h2]

theorem findInitialIdx_m3 (e : String) (l : List (StoreNode α))
    (h1 : findIdxO (fun n => n.expansion_order = some 0) l = none)
    (h2 : e = "" ∨ findIdxO (fun n =>
      n.name = e || n.id = e ||
      jsIncludes n.name e || jsIncludes e n.name) l = none) :
    findInitialIdx e l = 0 := by
  unfold findInitialIdx
  rw [h1]
  rcases h2 with h2 | h2
  · rw [if_pos h2]
  · by_cases he : e = ""
    · rw [if_pos he]
    · rw [if_neg he, h2]

/-- Stability of the self-heal pass: if every entry of `C` is the matching
entry of `B` either untouched or already healed, then healing `C` and healing
`B` agree.  This is the master lemma behind both idempotence of the self-heal
pass and idempotence of a repeated merge. -/
theorem ensureInitial_mask (e : String) (B C : List (StoreNode α))
    (hlen : C.length = B.length)
    (hpt : ∀ i, C.get? i = B.get? i ∨ C.get? i = (ensureInitial e B).get? i) :
    ensureInitial e C = ensureInitial e B := by
  by_cases hB : B = []
  · subst hB
    have hC : C = [] := List.length_eq_zero.mp (by simpa using hlen)
    subst hC
    rfl
  have hjlt : findInitialIdx e B < B.length := findInitialIdx_lt e B hB
  have hidname : ∀ i, (C.get? i).map (fun n => (n.id, n.name)) =
      (B.get? i).map (fun n => (n.id, n.name)) := by
    intro i
    rcases hpt i with h | h
    · rw [h]
    · rw [h, ensureInitial_getq, Option.map_map]
      cases hbi : B.get? i with
      | none => rfl
      | some n =>
        simp only [Option.map_some', Function.comp, Option.some.injEq]
        rw [id_healOrderNode, name_healOrderNode]
        split
        · rw [id_promoteNode, name_promoteNode]
        · rfl
  have hord : ∀ i, i ≠ findInitialIdx e B →
      (C.get? i).map (fun n => n.expansion_order) =
        (B.get? i).map (fun n => n.expansion_order) := by
    intro i hij
    rcases hpt i with h | h
    · rw [h]
    · rw [h, ensureInitial_getq, Option.map_map]
      cases hbi : B.get? i with
      | none => rfl
      | some n =>
        simp only [Option.map_some', Function.comp, Option.some.injEq]
        rw [ord_healOrderNode, if_neg hij]
  have hsel : findInitialIdx e C = findInitialIdx e B := by
    have main_eq : C.get? (findInitialIdx e B) = B.get? (findInitialIdx e B) →
        (∀ i, (C.get? i).map (fun n => n.expansion_order) =
          (B.get? i).map (fun n => n.expansion_order)) := by
      intro hjj i
      by_cases hij : i = findInitialIdx e B
      · subst hij
        rw [hjj]
      · exact hord i hij
    have hm2gen : findIdxO (fun n =>
        n.name = e || n.id = e ||
        jsIncludes n.name e || jsIncludes e n.name) C =
          findIdxO (fun n =>
        n.name = e || n.id = e ||
        jsIncludes n.name e || jsIncludes e n.name) B := by
      exact findIdxO_congr_fac (fun n => (n.id, n.name))
        (fun pr => pr.2 = e || pr.1 = e || jsIncludes pr.2 e || jsIncludes e pr.2)
        C B hlen hidname
    have finish_eq : (∀ i, (C.get? i).map (fun n => n.expansion_order) =
        (B.get? i).map (fun n => n.expansion_order)) →
        findInitialIdx e C = findInitialIdx e B := by
      intro hordall
      have hm1CB : findIdxO (fun n => n.expansion_order = some 0) C =
          findIdxO (fun n => n.expansion_order = some 0) B := by
        exact findIdxO_congr_fac (fun n => n.expansion_order)
          (fun o => o = some 0) C B hlen hordall
      cases hm1 : findIdxO (fun n => n.expansion_order = some 0) B with
      | some j0 =>
        rw [findInitialIdx_m1 e C j0 (hm1CB.trans hm1), findInitialIdx_m1 e B j0 hm1]
      | none =>
        by_cases he : e = ""
        · rw [findInitialIdx_m3 e C (hm1CB.trans hm1) (Or.inl he),
            findInitialIdx_m3 e B hm1 (Or.inl he)]
        · cases hm2 : findIdxO (fun n =>
              n.name = e || n.id = e ||
              jsIncludes n.name e || jsIncludes e n.name) B with
          | some k =>
            rw [findInitialIdx_m2 e C k (hm1CB.trans hm1) he (hm2gen.trans hm2),
              findInitialIdx_m2 e B k hm1 he hm2]
          | none =>
            rw [findInitialIdx_m3 e C (hm1CB.trans hm1) (Or.inr (hm2gen.trans hm2)),
              findInitialIdx_m3 e B hm1 (Or.inr hm2)]
    cases hm1 : findIdxO (fun n => n.expansion_order = some 0) B with
    | some j0 =>
      -- an order-0 node exists in B; orders agree everywhere (promotion writes
      -- `some 0` on a node that already carries it)
      have hfiB : findInitialIdx e B = j0 := findInitialIdx_m1 e B j0 hm1
      have hj0lt : j0 < B.length := findIdxO_lt _ B j0 hm1
      have hordj0 : (B.get ⟨j0, hj0lt⟩).expansion_order = some 0 := by
        have := findIdxO_get _ B j0 hm1 hj0lt
        simpa using this
      have hordall : ∀ i, (C.get? i).map (fun n => n.expansion_order) =
          (B.get? i).map (fun n => n.expansion_order) := by
        intro i
        by_cases hij : i = findInitialIdx e B
        · subst hij
          rcases hpt (findInitialIdx e B) with h | h
          · rw [h]
          · rw [h, ensureInitial_getq, Option.map_map, hfiB,
              List.get?_eq_get hj0lt]
            simp only [Option.map_some', Function.comp, Option.some.injEq]
            rw [ord_healOrderNode, if_true]
            unfold promoteNode
            split
            · rw [hordj0]
            · rfl
        · exact hord i hij
      exact finish_eq hordall
    | none =>
      have hnone : ∀ i (hi : i < B.length),
          (B.get ⟨i, hi⟩).expansion_order ≠ some 0 := by
        intro i hi
        have := (findIdxO_eq_none_iff _ B).mp hm1 _ (B.get_mem i hi)
        simpa using this
      rcases hpt (findInitialIdx e B) with hjj | hjj
      · exact finish_eq (main_eq hjj)
      · rw [ensureInitial_getq, List.get?_eq_get hjlt] at hjj
        simp only [Option.map_some'] at hjj
        rw [if_true] at hjj
        rw [heal_promote] at hjj
        by_cases hfire :
            statusNormalish (B.get ⟨findInitialIdx e B, hjlt⟩).expansion_status = true
        · -- the promotion fired: position j of C carries order 0, nothing else does
          have hjltC : findInitialIdx e B < C.length := by rw [hlen]; exact hjlt
          have hCj : C.get ⟨findInitialIdx e B, hjltC⟩ =
              { B.get ⟨findInitialIdx e B, hjlt⟩ with
                expansion_status := "expansion", expansion_order := some 0 } := by
            have := hjj
            rw [List.get?_eq_get hjltC] at this
            injection this with h2
            rw [h2]
            unfold promoteNode
            rw [if_pos hfire]
          have hm1C : findIdxO (fun n => n.expansion_order = some 0) C =
              some (findInitialIdx e B) := by
            apply findIdxO_eq_some_of _ C _ hjltC
            · rw [hCj]
              simp
            · intro k hk2 hkj
              have hkB : k < B.length := by rw [← hlen]; exact hk2
              have hne2 : k ≠ findInitialIdx e B := by omega
              have hcb := hord k hne2
              rw [List.get?_eq_get hk2, List.get?_eq_get hkB] at hcb
              simp only [Option.map_some', Option.some.injEq] at hcb
              rw [hcb]
              have := hnone k hkB
              simpa using this
          exact findInitialIdx_m1 e C _ hm1C
        · -- no promotion: position j of C equals position j of B
          have hjeq : C.get? (findInitialIdx e B) = B.get? (findInitialIdx e B) := by
            rw [hjj]
            unfold promoteNode
            rw [if_neg hfire, List.get?_eq_get hjlt]
          exact finish_eq (main_eq hjeq)
  apply List.ext
  intro i
  rw [ensureInitial_getq, ensureInitial_getq, hsel]
  rcases hpt i with h | h
  · rw [h]
  · rw [h, ensureInitial_getq, Option.map_map]
    cases B.get? i with
    | none => rfl
    | some n =>
      simp only [Option.map_some', Function.comp, Option.some.injEq]
      by_cases hij : i = findInitialIdx e B
      · simp only [if_pos hij]
        rw [heal_promote n, promote_promote n]
        exact heal_promote n
      · simp only [if_neg hij]
        rw [healOrder_healOrder]

/-- Idempotence of the self-heal pass. -/
theorem ensureInitial_idem (e : String) (l : List (StoreNode α)) :
    ensureInitial e (ensureInitial e l) = ensureInitial e l :=
  ensureInitial_mask e l (ensureInitial e l) (ensureInitial_length e l)
    (fun _ => Or.inr rfl)

theorem find?_congr (p q : β → Bool) (l : List β) (h : ∀ b ∈ l, p b = q b) :
    l.find? p = l.find? q := by
  induction l with
  | nil => rfl
  | cons b bs ih =>
    have hb := h b (List.mem_cons_self b bs)
    by_cases hp : p b = true
    · rw [List.find?_cons_of_pos _ hp, List.find?_cons_of_pos _ (hb ▸ hp)]
    · rw [List.find?_cons_of_neg _ hp, List.find?_cons_of_neg _ (hb ▸ hp)]
      exact ih (fun b2 h2 => h b2 (List.mem_cons_of_mem b h2))

theorem getq_map_congr (f : β → γ) (l l2 : List β) (h : l.map f = l2.map f)
    (k : Nat) : (l.get? k).map f = (l2.get? k).map f := by
  rw [← List.get?_map, ← List.get?_map, h]

theorem J_eq_of_ids (l l2 : List (StoreNode α)) (rid : String)
    (h : l.map (fun n => n.id) = l2.map (fun n => n.id)) :
    findIdxO (fun n => n.id = rid) l = findIdxO (fun n => n.id = rid) l2 := by
  have h1 : findIdxO (fun n => n.id = rid) l
      = findIdxO (fun s => s = rid) (l.map (fun n => n.id)) :=
    (findIdxO_map (fun s => decide (s = rid)) (fun n => n.id) l).symm
  have h2 : findIdxO (fun n => n.id = rid) l2
      = findIdxO (fun s => s = rid) (l2.map (fun n => n.id)) :=
    (findIdxO_map (fun s => decide (s = rid)) (fun n => n.id) l2).symm
  rw [h1, h2, h]

theorem mergeFold_length (recs : List NodeRec) (A : List (StoreNode α)) :
    (recs.foldl mergeFirst A).length = A.length := by
  induction recs generalizing A with
  | nil => rfl
  | cons r rest ih =>
    rw [List.foldl_cons, ih, mergeFirst_length]

theorem J_some_of_mem_ids (l : List (StoreNode α)) (rid : String)
    (h : rid ∈ l.map (fun n => n.id)) :
    ∃ j, findIdxO (fun n => n.id = rid) l = some j := by
  cases hf : findIdxO (fun n => n.id = rid) l with
  | some j => exact ⟨j, rfl⟩
  | none =>
    obtain ⟨n, hn, hid⟩ := List.mem_map.mp h
    have := (findIdxO_eq_none_iff _ l).mp hf n hn
    simp [hid] at this

/-- Under the invariants of the node loop (acc extends a list sharing the
original prefix ids, new suffix ids unseen), the first-index of a snapshot id
in `acc` agrees with its first-index in `nodes0`. -/
theorem J_acc_eq (nodes0 acc : List (StoreNode α)) (rid : String)
    (hlen : nodes0.length ≤ acc.length)
    (hpre : ∀ k, k < nodes0.length →
      (acc.get? k).map (fun n => n.id) = (nodes0.get? k).map (fun n => n.id))
    (hmem : rid ∈ nodes0.map (fun n => n.id)) :
    findIdxO (fun n => n.id = rid) acc = findIdxO (fun n => n.id = rid) nodes0 := by
  obtain ⟨j, hj⟩ := J_some_of_mem_ids nodes0 rid hmem
  have hjlt : j < nodes0.length := findIdxO_lt _ nodes0 j hj
  have hjacc : j < acc.length := lt_of_lt_of_le hjlt hlen
  have hidj : (acc.get ⟨j, hjacc⟩).id = (nodes0.get ⟨j, hjlt⟩).id := by
    have := hpre j hjlt
    rw [List.get?_eq_get hjlt, List.get?_eq_get hjacc] at this
    simpa using this
  rw [hj]
  apply findIdxO_eq_some_of _ acc j hjacc
  · have := findIdxO_get _ nodes0 j hj hjlt
    simp only [decide_eq_true_eq] at this
    simp only [decide_eq_true_eq]
    rw [hidj]
    exact this
  · intro k hk2 hkj
    have hklt : k < nodes0.length := lt_trans hkj hjlt
    have hidk : (acc.get ⟨k, hk2⟩).id = (nodes0.get ⟨k, hklt⟩).id := by
      have := hpre k hklt
      rw [List.get?_eq_get hklt, List.get?_eq_get hk2] at this
      simpa using this
    have := findIdxO_before _ nodes0 j hj k hkj hklt
    simp only [decide_eq_false_iff_not] at this
    simp only [decide_eq_false_iff_not]
    rw [hidk]
    exact this

theorem core_ensureInitial_getq (e : String) (l : List (StoreNode α)) (i : Nat) :
    ((ensureInitial e l).get? i).map core = (l.get? i).map core := by
  rw [ensureInitial_getq]
  cases h : l.get? i with
  | none => rfl
  | some n =>
    simp only [Option.map_some']
    rw [core_healOrderNode]
    by_cases hi : i = findInitialIdx e l
    · rw [if_pos hi, core_promoteNode]
    · rw [if_neg hi]

/-- Pointwise description of the incremental node loop on the pre-existing
prefix: position `i < nodes0.length` is merged with the unique record of the
batch whose id first occurs there, and is untouched otherwise. -/
theorem applyNodes_prefix (place : Nat → Nat → α × α) (nodes0 : List (StoreNode α)) :
    ∀ (recs : List NodeRec) (acc : List (StoreNode α)),
      nodes0.length ≤ acc.length →
      (∀ k, k < nodes0.length →
        (acc.get? k).map (fun n => n.id) = (nodes0.get? k).map (fun n => n.id)) →
      (∀ k, nodes0.length ≤ k → ∀ m : StoreNode α,
        acc.get? k = some m → m.id ∉ nodes0.map (fun n => n.id)) →
      (recs.map (fun r => r.id)).Nodup →
      ∀ i, i < nodes0.length →
      (recs.foldl (stepFn place (nodes0.map (fun n => n.id))) acc).get? i =
        match recs.find? (fun r =>
            findIdxO (fun n => n.id = r.id) nodes0 = some i) with
        | some r => (acc.get? i).map (fun n => mergeNode n r)
        | none => acc.get? i := by
  intro recs
  induction recs with
  | nil => intro acc _ _ _ _ i _; rfl
  | cons r0 rest ih =>
    intro acc hlen hpre hsuf hnodup i hi
    have hnodup2 : (rest.map (fun r => r.id)).Nodup := by
      rw [List.map_cons] at hnodup
      exact (List.nodup_cons.mp hnodup).2
    rw [List.foldl_cons]
    by_cases hE : r0.id ∈ nodes0.map (fun n => n.id)
    · have hstep : stepFn place (nodes0.map (fun n => n.id)) acc r0 =
          mergeFirst acc r0 := by
        unfold stepFn
        rw [if_pos hE]
      rw [hstep]
      have hids : (mergeFirst acc r0).map (fun n => n.id) =
          acc.map (fun n => n.id) := ids_mergeFirst acc r0
      have hJa : findIdxO (fun n => n.id = r0.id) acc =
          findIdxO (fun n => n.id = r0.id) nodes0 :=
        J_acc_eq nodes0 acc r0.id hlen hpre hE
      have hlen2 : nodes0.length ≤ (mergeFirst acc r0).length := by
        rw [mergeFirst_length]
        exact hlen
      have hpre2 : ∀ k, k < nodes0.length →
          ((mergeFirst acc r0).get? k).map (fun n => n.id) =
            (nodes0.get? k).map (fun n => n.id) := by
        intro k hk
        rw [getq_map_congr (fun n => n.id) _ acc hids k]
        exact hpre k hk
      have hsuf2 : ∀ k, nodes0.length ≤ k → ∀ m : StoreNode α,
          (mergeFirst acc r0).get? k = some m →
            m.id ∉ nodes0.map (fun n => n.id) := by
        intro k hk m hm
        have h1 := getq_map_congr (fun n => n.id) _ acc hids k
        rw [hm] at h1
        cases hacc : acc.get? k with
        | none => rw [hacc] at h1; cases h1
        | some m2 =>
          rw [hacc] at h1
          simp only [Option.map_some', Option.some.injEq] at h1
          rw [h1]
          exact hsuf k hk m2 hacc
      rw [ih (mergeFirst acc r0) hlen2 hpre2 hsuf2 hnodup2 i hi]
      by_cases hJ0 : findIdxO (fun n => n.id = r0.id) nodes0 = some i
      · have hhead : (r0 :: rest).find? (fun r =>
            findIdxO (fun n => n.id = r.id) nodes0 = some i) = some r0 :=
          List.find?_cons_of_pos _ (by simp [hJ0])
        have hrest : rest.find? (fun r =>
            findIdxO (fun n => n.id = r.id) nodes0 = some i) = none := by
          rw [List.find?_eq_none]
          intro r hr
          simp only [decide_eq_true_eq]
          intro hJr
          have h1 := findIdxO_get _ nodes0 i hJr hi
          have h2 := findIdxO_get _ nodes0 i hJ0 hi
          simp only [decide_eq_true_eq] at h1 h2
          have heq : r.id = r0.id := h1.symm.trans h2
          have hnotmem : r0.id ∉ rest.map (fun r => r.id) := by
            rw [List.map_cons] at hnodup
            exact (List.nodup_cons.mp hnodup).1
          exact hnotmem (by rw [← heq]; exact List.mem_map.mpr ⟨r, hr, rfl⟩)
        rw [hrest, hhead]
        show (mergeFirst acc r0).get? i = (acc.get? i).map (fun n => mergeNode n r0)
        rw [mergeFirst_getq, if_pos (hJa.trans hJ0)]
      · have hhead : (r0 :: rest).find? (fun r =>
            findIdxO (fun n => n.id = r.id) nodes0 = some i) =
            rest.find? (fun r =>
              findIdxO (fun n => n.id = r.id) nodes0 = some i) :=
          List.find?_cons_of_neg _ (by simp [hJ0])
        rw [hhead]
        have hacci : (mergeFirst acc r0).get? i = acc.get? i := by
          rw [mergeFirst_getq, if_neg]
          rw [hJa]
          exact hJ0
        cases hf : rest.find? (fun r =>
            findIdxO (fun n => n.id = r.id) nodes0 = some i) with
        | none =>
          show (mergeFirst acc r0).get? i = acc.get? i
          exact hacci
        | some r =>
          show ((mergeFirst acc r0).get? i).map (fun n => mergeNode n r) =
            (acc.get? i).map (fun n => mergeNode n r)
          rw [hacci]
    · have hstep : stepFn place (nodes0.map (fun n => n.id)) acc r0 =
          acc ++ [createStoreNode place r0 acc.length (acc.length + 1)] := by
        unfold stepFn
        rw [if_neg hE]
      rw [hstep]
      have hlen2 : nodes0.length ≤
          (acc ++ [createStoreNode place r0 acc.length (acc.length + 1)]).length := by
        rw [List.length_append]
        have := hlen
        omega
      have hpre2 : ∀ k, k < nodes0.length →
          ((acc ++ [createStoreNode place r0 acc.length (acc.length + 1)]).get?
              k).map (fun n => n.id) =
            (nodes0.get? k).map (fun n => n.id) := by
        intro k hk
        rw [List.get?_append (lt_of_lt_of_le hk hlen)]
        exact hpre k hk
      have hsuf2 : ∀ k, nodes0.length ≤ k → ∀ m : StoreNode α,
          (acc ++ [createStoreNode place r0 acc.length (acc.length + 1)]).get? k =
              some m →
            m.id ∉ nodes0.map (fun n => n.id) := by
        intro k hk m hm
        rcases Nat.lt_trichotomy k acc.length with hlt | heq | hgt
        · rw [List.get?_append hlt] at hm
          exact hsuf k hk m hm
        · rw [heq, List.get?_concat_length] at hm
          injection hm with hm2
          rw [← hm2]
          exact hE
        · have hge : (acc ++ [createStoreNode place r0 acc.length
              (acc.length + 1)]).length ≤ k := by
            rw [List.length_append, List.length_singleton]
            omega
          rw [List.get?_eq_none.mpr hge] at hm
          cases hm
      rw [ih _ hlen2 hpre2 hsuf2 hnodup2 i hi]
      have hJ0 : findIdxO (fun n => n.id = r0.id) nodes0 = none := by
        rw [findIdxO_eq_none_iff]
        intro n hn
        simp only [decide_eq_false_iff_not]
        intro hid
        exact hE (List.mem_map.mpr ⟨n, hn, hid⟩)
      have hhead : (r0 :: rest).find? (fun r =>
          findIdxO (fun n => n.id = r.id) nodes0 = some i) =
          rest.find? (fun r =>
            findIdxO (fun n => n.id = r.id) nodes0 = some i) :=
        List.find?_cons_of_neg _ (by simp [hJ0])
      rw [hhead]
      have hacci : (acc ++ [createStoreNode place r0 acc.length
          (acc.length + 1)]).get? i = acc.get? i :=
        List.get?_append (lt_of_lt_of_le hi hlen)
      cases hf : rest.find? (fun r =>
          findIdxO (fun n => n.id = r.id) nodes0 = some i) with
      | none =>
        show (acc ++ [createStoreNode place r0 acc.length
            (acc.length + 1)]).get? i = acc.get? i
        exact hacci
      | some r =>
        show ((acc ++ [createStoreNode place r0 acc.length
            (acc.length + 1)]).get? i).map (fun n => mergeNode n r) =
          (acc.get? i).map (fun n => mergeNode n r)
        rw [hacci]

/-- The incremental node loop away from the `nodes0` prefix: positions of `acc`
beyond the prefix are never touched, and position `acc.length + k` receives the
`k`-th created record of the batch. -/
theorem applyNodes_suffix (place : Nat → Nat → α × α) (nodes0 : List (StoreNode α)) :
    ∀ (recs : List NodeRec) (acc : List (StoreNode α)),
      nodes0.length ≤ acc.length →
      (∀ k, k < nodes0.length →
        (acc.get? k).map (fun n => n.id) = (nodes0.get? k).map (fun n => n.id)) →
      (∀ k, nodes0.length ≤ k → ∀ m : StoreNode α,
        acc.get? k = some m → m.id ∉ nodes0.map (fun n => n.id)) →
      (∀ k, nodes0.length ≤ k → k < acc.length →
        (recs.foldl (stepFn place (nodes0.map (fun n => n.id))) acc).get? k =
          acc.get? k) ∧
      (∀ k, (recs.foldl (stepFn place (nodes0.map (fun n => n.id))) acc).get?
            (acc.length + k) =
          ((newRecs (nodes0.map (fun n => n.id)) recs).get? k).map
            (fun r => createStoreNode place r (acc.length + k)
              (acc.length + k + 1))) := by
  intro recs
  induction recs with
  | nil =>
    intro acc _ _ _
    refine ⟨fun k _ _ => rfl, fun k => ?_⟩
    show acc.get? (acc.length + k) = (([] : List NodeRec).get? k).map _
    rw [List.get?_eq_none.mpr (Nat.le_add_right _ _)]
    rfl
  | cons r0 rest ih =>
    intro acc hlen hpre hsuf
    by_cases hE : r0.id ∈ nodes0.map (fun n => n.id)
    · have hstep : stepFn place (nodes0.map (fun n => n.id)) acc r0 =
          mergeFirst acc r0 := by
        unfold stepFn
        rw [if_pos hE]
      have hids : (mergeFirst acc r0).map (fun n => n.id) =
          acc.map (fun n => n.id) := ids_mergeFirst acc r0
      have hJa : findIdxO (fun n => n.id = r0.id) acc =
          findIdxO (fun n => n.id = r0.id) nodes0 :=
        J_acc_eq nodes0 acc r0.id hlen hpre hE
      have hlenm : (mergeFirst acc r0).length = acc.length := mergeFirst_length acc r0
      have hlen2 : nodes0.length ≤ (mergeFirst acc r0).length := by
        rw [hlenm]
        exact hlen
      have hpre2 : ∀ k, k < nodes0.length →
          ((mergeFirst acc r0).get? k).map (fun n => n.id) =
            (nodes0.get? k).map (fun n => n.id) := by
        intro k hk
        rw [getq_map_congr (fun n => n.id) _ acc hids k]
        exact hpre k hk
      have hsuf2 : ∀ k, nodes0.length ≤ k → ∀ m : StoreNode α,
          (mergeFirst acc r0).get? k = some m →
            m.id ∉ nodes0.map (fun n => n.id) := by
        intro k hk m hm
        have h1 := getq_map_congr (fun n => n.id) _ acc hids k
        rw [hm] at h1
        cases hacc : acc.get? k with
        | none => rw [hacc] at h1; cases h1
        | some m2 =>
          rw [hacc] at h1
          simp only [Option.map_some', Option.some.injEq] at h1
          rw [h1]
          exact hsuf k hk m2 hacc
      have IH := ih (mergeFirst acc r0) hlen2 hpre2 hsuf2
      have hnew : newRecs (nodes0.map (fun n => n.id)) (r0 :: rest) =
          newRecs (nodes0.map (fun n => n.id)) rest := by
        show (if r0.id ∈ nodes0.map (fun n => n.id) then _ else _) = _
        rw [if_pos hE]
      constructor
      · intro k hk hklt
        have hklt2 : k < (mergeFirst acc r0).length := by
          rw [hlenm]
          exact hklt
        rw [List.foldl_cons, hstep, IH.1 k hk hklt2, mergeFirst_getq, if_neg]
        intro hcon
        rw [hJa] at hcon
        have := findIdxO_lt _ nodes0 k hcon
        omega
      · intro k
        have h2 := IH.2 k
        rw [hlenm] at h2
        rw [List.foldl_cons, hstep, h2, hnew]
    · have hstep : stepFn place (nodes0.map (fun n => n.id)) acc r0 =
          acc ++ [createStoreNode place r0 acc.length (acc.length + 1)] := by
        unfold stepFn
        rw [if_neg hE]
      have hlen2 : nodes0.length ≤
          (acc ++ [createStoreNode place r0 acc.length (acc.length + 1)]).length := by
        rw [List.length_append]
        have := hlen
        omega
      have hpre2 : ∀ k, k < nodes0.length →
          ((acc ++ [createStoreNode place r0 acc.length (acc.length + 1)]).get?
              k).map (fun n => n.id) =
            (nodes0.get? k).map (fun n => n.id) := by
        intro k hk
        rw [List.get?_append (lt_of_lt_of_le hk hlen)]
        exact hpre k hk
      have hsuf2 : ∀ k, nodes0.length ≤ k → ∀ m : StoreNode α,
          (acc ++ [createStoreNode place r0 acc.length (acc.length + 1)]).get? k =
              some m →
            m.id ∉ nodes0.map (fun n => n.id) := by
        intro k hk m hm
        rcases Nat.lt_trichotomy k acc.length with hlt | heq | hgt
        · rw [List.get?_append hlt] at hm
          exact hsuf k hk m hm
        · rw [heq, List.get?_concat_length] at hm
          injection hm with hm2
          rw [← hm2]
          exact hE
        · have hge : (acc ++ [createStoreNode place r0 acc.length
              (acc.length + 1)]).length ≤ k := by
            rw [List.length_append, List.length_singleton]
            omega
          rw [List.get?_eq_none.mpr hge] at hm
          cases hm
      have IH := ih (acc ++ [createStoreNode place r0 acc.length (acc.length + 1)])
        hlen2 hpre2 hsuf2
      have hnew : newRecs (nodes0.map (fun n => n.id)) (r0 :: rest) =
          r0 :: newRecs (nodes0.map (fun n => n.id)) rest := by
        show (if r0.id ∈ nodes0.map (fun n => n.id) then _ else _) = _
        rw [if_neg hE]
      constructor
      · intro k hk hklt
        have hklt2 : k < (acc ++ [createStoreNode place r0 acc.length
            (acc.length + 1)]).length := by
          rw [List.length_append]
          omega
        rw [List.foldl_cons, hstep, IH.1 k hk hklt2]
        exact List.get?_append hklt
      · intro k
        rw [List.foldl_cons, hstep, hnew]
        cases k with
        | zero =>
          have hk2 : acc.length < (acc ++ [createStoreNode place r0 acc.length
              (acc.length + 1)]).length := by
            rw [List.length_append, List.length_singleton]
            omega
          have hstab := IH.1 acc.length hlen hk2
          show (List.foldl (stepFn place (nodes0.map (fun n => n.id)))
              (acc ++ [createStoreNode place r0 acc.length (acc.length + 1)])
              rest).get? acc.length =
            some (createStoreNode place r0 acc.length (acc.length + 1))
          rw [hstab, List.get?_concat_length]
        | succ k2 =>
          have h2 := IH.2 k2
          have hidx : (acc ++ [createStoreNode place r0 acc.length
              (acc.length + 1)]).length + k2 = acc.length + (k2 + 1) := by
            rw [List.length_append, List.length_singleton]
            omega
          rw [hidx] at h2
          rw [h2]
          rfl

/-- When every record id is already in the snapshot, the node loop is a pure
sequence of first-match merges. -/
theorem foldl_stepFn_all_merge (place : Nat → Nat → α × α) (E : List String) :
    ∀ (recs : List NodeRec) (acc : List (StoreNode α)),
      (∀ r ∈ recs, r.id ∈ E) →
      recs.foldl (stepFn place E) acc = recs.foldl mergeFirst acc := by
  intro recs
  induction recs with
  | nil => intro acc _; rfl
  | cons r0 rest ih =>
    intro acc h
    rw [List.foldl_cons, List.foldl_cons]
    have hstep : stepFn place E acc r0 = mergeFirst acc r0 := by
      unfold stepFn
      rw [if_pos (h r0 (List.mem_cons_self r0 rest))]
    rw [hstep]
    exact ih (mergeFirst acc r0) (fun r hr => h r (List.mem_cons_of_mem r0 hr))

/-- Pointwise description of a pure merge fold over a duplicate-free batch:
position `i` is merged with the unique record whose id first occurs there. -/
theorem mergeFold_getq :
    ∀ (recs : List NodeRec) (A : List (StoreNode α)) (i : Nat),
      (recs.map (fun r => r.id)).Nodup →
      (recs.foldl mergeFirst A).get? i =
        match recs.find? (fun r =>
            findIdxO (fun n => n.id = r.id) A = some i) with
        | some r => (A.get? i).map (fun n => mergeNode n r)
        | none => A.get? i := by
  intro recs
  induction recs with
  | nil => intro A i _; rfl
  | cons r0 rest ih =>
    intro A i hnodup
    have hnodup2 : (rest.map (fun r => r.id)).Nodup := by
      rw [List.map_cons] at hnodup
      exact (List.nodup_cons.mp hnodup).2
    have hnotmem : r0.id ∉ rest.map (fun r => r.id) := by
      rw [List.map_cons] at hnodup
      exact (List.nodup_cons.mp hnodup).1
    rw [List.foldl_cons, ih (mergeFirst A r0) i hnodup2]
    have hJtr : rest.find? (fun r =>
        findIdxO (fun n => n.id = r.id) (mergeFirst A r0) = some i) =
        rest.find? (fun r => findIdxO (fun n => n.id = r.id) A = some i) := by
      apply find?_congr
      intro r _
      rw [J_eq_of_ids (mergeFirst A r0) A r.id (ids_mergeFirst A r0)]
    rw [hJtr]
    by_cases hJ0 : findIdxO (fun n => n.id = r0.id) A = some i
    · have hhead : (r0 :: rest).find? (fun r =>
          findIdxO (fun n => n.id = r.id) A = some i) = some r0 :=
        List.find?_cons_of_pos _ (by simp [hJ0])
      have hrest : rest.find? (fun r =>
          findIdxO (fun n => n.id = r.id) A = some i) = none := by
        rw [List.find?_eq_none]
        intro r hr
        simp only [decide_eq_true_eq]
        intro hJr
        have hiA : i < A.length := findIdxO_lt _ A i hJ0
        have h1 := findIdxO_get _ A i hJr hiA
        have h2 := findIdxO_get _ A i hJ0 hiA
        simp only [decide_eq_true_eq] at h1 h2
        have heq : r.id = r0.id := h1.symm.trans h2
        exact hnotmem (by rw [← heq]; exact List.mem_map.mpr ⟨r, hr, rfl⟩)
      rw [hrest, hhead]
      show (mergeFirst A r0).get? i = (A.get? i).map (fun n => mergeNode n r0)
      rw [mergeFirst_getq, if_pos hJ0]
    · have hhead : (r0 :: rest).find? (fun r =>
          findIdxO (fun n => n.id = r.id) A = some i) =
          rest.find? (fun r => findIdxO (fun n => n.id = r.id) A = some i) :=
        List.find?_cons_of_neg _ (by simp [hJ0])
      rw [hhead]
      have hAi : (mergeFirst A r0).get? i = A.get? i := by
        rw [mergeFirst_getq, if_neg hJ0]
      cases hf : rest.find? (fun r =>
          findIdxO (fun n => n.id = r.id) A = some i) with
      | none =>
        show (mergeFirst A r0).get? i = A.get? i
        exact hAi
      | some r =>
        show ((mergeFirst A r0).get? i).map (fun n => mergeNode n r) =
          (A.get? i).map (fun n => mergeNode n r)
        rw [hAi]

/-- Central idempotence step: re-applying an already-applied batch (with
pairwise-distinct record ids and no empty-string `type`) to the healed store
and healing again reproduces the healed store exactly. -/
theorem apply_heal_apply (place : Nat → Nat → α × α) (e : String)
    (nodes0 : List (StoreNode α)) (recs : List NodeRec)
    (hnodup : (recs.map (fun r => r.id)).Nodup)
    (htype : ∀ r ∈ recs, r.type ≠ some "") :
    ensureInitial e (applyIncrementalNodes place
      (ensureInitial e (applyIncrementalNodes place nodes0 recs)) recs) =
    ensureInitial e (applyIncrementalNodes place nodes0 recs) := by
  set B := applyIncrementalNodes place nodes0 recs with hB
  set A := ensureInitial e B with hA
  have hidsAB : A.map (fun n => n.id) = B.map (fun n => n.id) := by
    rw [hA]
    exact ids_ensureInitial e B
  have hidsB : B.map (fun n => n.id) =
      nodes0.map (fun n => n.id) ++ newIds (nodes0.map (fun n => n.id)) recs := by
    rw [hB]
    exact ids_applyIncrementalNodes place nodes0 recs
  have hmem : ∀ r ∈ recs, r.id ∈ A.map (fun n => n.id) := by
    intro r hr
    rw [hidsAB, hidsB]
    by_cases h : r.id ∈ nodes0.map (fun n => n.id)
    · exact List.mem_append_left _ h
    · exact List.mem_append_right _ (id_mem_newIds _ recs r hr h)
  have happly : applyIncrementalNodes place A recs = recs.foldl mergeFirst A := by
    show recs.foldl (stepFn place (A.map (fun n => n.id))) A =
      recs.foldl mergeFirst A
    exact foldl_stepFn_all_merge place (A.map (fun n => n.id)) recs A hmem
  have hlenBA : A.length = B.length := by
    rw [hA]
    exact ensureInitial_length e B
  have hlenC : (applyIncrementalNodes place A recs).length = B.length := by
    rw [happly, mergeFold_length, hlenBA]
  apply ensureInitial_mask e B (applyIncrementalNodes place A recs) hlenC
  intro i
  rw [happly, mergeFold_getq recs A i hnodup]
  cases hfind : recs.find? (fun r =>
      findIdxO (fun n => n.id = r.id) A = some i) with
  | none => exact Or.inr rfl
  | some r =>
    left
    show (A.get? i).map (fun n => mergeNode n r) = B.get? i
    have hrmem : r ∈ recs := List.mem_of_find?_eq_some hfind
    have hJ : findIdxO (fun n => n.id = r.id) A = some i := by
      have := List.find?_some hfind
      simpa using this
    have hiA : i < A.length := findIdxO_lt _ A i hJ
    have hiB : i < B.length := by
      rw [← hlenBA]
      exact hiA
    have hJB : findIdxO (fun n => n.id = r.id) B = some i := by
      rw [← J_eq_of_ids A B r.id hidsAB]
      exact hJ
    rw [List.get?_eq_get hiA, List.get?_eq_get hiB]
    simp only [Option.map_some', Option.some.injEq]
    have hcore : core (A.get ⟨i, hiA⟩) = core (B.get ⟨i, hiB⟩) := by
      have hc := core_ensureInitial_getq e B i
      rw [← hA] at hc
      rw [List.get?_eq_get hiA, List.get?_eq_get hiB] at hc
      simpa using hc
    rw [mergeNode_congr_core r hcore]
    by_cases hpos : i < nodes0.length
    · -- the merged position lies in the pre-existing prefix
      have hJ0 : findIdxO (fun n => n.id = r.id) nodes0 = some i := by
        have hB2 : findIdxO (fun s => s = r.id) (B.map (fun n => n.id)) = some i := by
          rw [findIdxO_map]
          exact hJB
        rw [hidsB] at hB2
        have hlt : i < (nodes0.map (fun n => n.id)).length := by
          rw [List.length_map]
          exact hpos
        have hsm := findIdxO_append_small _ _ _ i hB2 hlt
        rw [findIdxO_map] at hsm
        exact hsm
      have hcongr : ∀ r2 ∈ recs,
          decide (findIdxO (fun n => n.id = r2.id) A = some i) =
            decide (findIdxO (fun n => n.id = r2.id) nodes0 = some i) := by
        intro r2 _
        rw [decide_eq_decide]
        constructor
        · intro h2
          have hJB2 : findIdxO (fun n => n.id = r2.id) B = some i := by
            rw [← J_eq_of_ids A B r2.id hidsAB]
            exact h2
          have hB2 : findIdxO (fun s => s = r2.id) (B.map (fun n => n.id)) =
              some i := by
            rw [findIdxO_map]
            exact hJB2
          rw [hidsB] at hB2
          have hlt : i < (nodes0.map (fun n => n.id)).length := by
            rw [List.length_map]
            exact hpos
          have hsm := findIdxO_append_small _ _ _ i hB2 hlt
          rw [findIdxO_map] at hsm
          exact hsm
        · intro h2
          have hn0 : findIdxO (fun s => s = r2.id) (nodes0.map (fun n => n.id)) =
              some i := by
            rw [findIdxO_map]
            exact h2
          have happ := findIdxO_append_left _ _
            (newIds (nodes0.map (fun n => n.id)) recs) i hn0
          rw [← hidsB, findIdxO_map] at happ
          rw [J_eq_of_ids A B r2.id hidsAB]
          exact happ
      have hfind0 : recs.find? (fun r2 =>
          findIdxO (fun n => n.id = r2.id) nodes0 = some i) = some r :=
        (find?_congr _ _ recs hcongr).symm.trans hfind
      have hp : (applyIncrementalNodes place nodes0 recs).get? i =
          match recs.find? (fun r2 =>
              findIdxO (fun n => n.id = r2.id) nodes0 = some i) with
          | some r2 => (nodes0.get? i).map (fun n => mergeNode n r2)
          | none => nodes0.get? i :=
        applyNodes_prefix place nodes0 recs nodes0 (le_refl _)
          (fun _ _ => rfl)
          (fun k hk m hm => by
            rw [List.get?_eq_none.mpr hk] at hm
            cases hm)
          hnodup i hpos
      rw [hfind0] at hp
      have hBg : B.get ⟨i, hiB⟩ = mergeNode (nodes0.get ⟨i, hpos⟩) r := by
        have hp2 : B.get? i = (nodes0.get? i).map (fun n => mergeNode n r) := by
          rw [hB]
          exact hp
        rw [List.get?_eq_get hiB, List.get?_eq_get hpos] at hp2
        simpa using hp2
      rw [hBg, mergeNode_mergeNode]
    · -- the merged position is one of the batch-created nodes
      push_neg at hpos
      have hsufd : (applyIncrementalNodes place nodes0 recs).get?
          (nodes0.length + (i - nodes0.length)) =
          ((newRecs (nodes0.map (fun n => n.id)) recs).get?
              (i - nodes0.length)).map
            (fun r2 => createStoreNode place r2
              (nodes0.length + (i - nodes0.length))
              (nodes0.length + (i - nodes0.length) + 1)) :=
        (applyNodes_suffix place nodes0 recs nodes0 (le_refl _)
          (fun _ _ => rfl)
          (fun k hk m hm => by
            rw [List.get?_eq_none.mpr hk] at hm
            cases hm)).2 (i - nodes0.length)
      have hidx : nodes0.length + (i - nodes0.length) = i := by omega
      rw [hidx, ← hB] at hsufd
      cases hnr : (newRecs (nodes0.map (fun n => n.id)) recs).get?
          (i - nodes0.length) with
      | none =>
        rw [hnr, List.get?_eq_get hiB] at hsufd
        exact Option.noConfusion hsufd
      | some r2 =>
        rw [hnr, List.get?_eq_get hiB] at hsufd
        simp only [Option.map_some'] at hsufd
        have hBg : B.get ⟨i, hiB⟩ = createStoreNode place r2 i (i + 1) :=
          Option.some.inj hsufd
        have hr2mem : r2 ∈ recs :=
          mem_of_mem_newRecs _ recs r2 (List.get?_mem hnr)
        have hid2 : r2.id = r.id := by
          have hgid := findIdxO_get _ B i hJB hiB
          simp only [decide_eq_true_eq] at hgid
          rw [hBg] at hgid
          exact hgid
        have hr2r : r2 = r := List.inj_on_of_nodup_map hnodup hr2mem hrmem hid2
        rw [hBg, hr2r]
        exact mergeNode_createStoreNode place r i (i + 1) (htype r hrmem)

theorem linkfold_prefix (E : List String) :
    ∀ (ps : List StoreLink) (acc : List StoreLink),
      ∃ t, ps.foldl (linkStep E) acc = acc ++ t := by
  intro ps
  induction ps with
  | nil => intro acc; exact ⟨[], (List.append_nil acc).symm⟩
  | cons p rest ih =>
    intro acc
    by_cases hp : p.id ∈ E
    · have hstep : linkStep E acc p = acc := by
        unfold linkStep
        rw [if_pos hp]
      rw [List.foldl_cons, hstep]
      exact ih acc
    · have hstep : linkStep E acc p = acc ++ [p] := by
        unfold linkStep
        rw [if_neg hp]
      rw [List.foldl_cons, hstep]
      obtain ⟨t, ht⟩ := ih (acc ++ [p])
      exact ⟨[p] ++ t, by rw [ht, List.append_assoc]⟩

theorem linkfold_mem_ids (E : List String) :
    ∀ (ps : List StoreLink) (acc : List StoreLink),
      E ⊆ acc.map (fun l => l.id) →
      ∀ p ∈ ps, p.id ∈ (ps.foldl (linkStep E) acc).map (fun l => l.id) := by
  intro ps
  induction ps with
  | nil => intro acc _ p hp; cases hp
  | cons p0 rest ih =>
    intro acc hsub p hp
    by_cases h0 : p0.id ∈ E
    · have hstep : linkStep E acc p0 = acc := by
        unfold linkStep
        rw [if_pos h0]
      rw [List.foldl_cons, hstep]
      cases List.mem_cons.mp hp with
      | inl heq =>
        obtain ⟨t, ht⟩ := linkfold_prefix E rest acc
        rw [ht, List.map_append]
        rw [heq]
        exact List.mem_append_left _ (hsub h0)
      | inr hmem => exact ih acc hsub p hmem
    · have hstep : linkStep E acc p0 = acc ++ [p0] := by
        unfold linkStep
        rw [if_neg h0]
      rw [List.foldl_cons, hstep]
      have hsub2 : E ⊆ (acc ++ [p0]).map (fun l => l.id) := by
        rw [List.map_append]
        exact fun s hs => List.mem_append_left _ (hsub hs)
      cases List.mem_cons.mp hp with
      | inl heq =>
        obtain ⟨t, ht⟩ := linkfold_prefix E rest (acc ++ [p0])
        rw [ht, List.map_append, List.map_append, heq]
        refine List.mem_append_left _ (List.mem_append_right _ ?_)
        simp
      | inr hmem => exact ih (acc ++ [p0]) hsub2 p hmem

theorem linkfold_all_skip (E : List String) :
    ∀ (ps : List StoreLink) (acc : List StoreLink),
      (∀ p ∈ ps, p.id ∈ E) →
      ps.foldl (linkStep E) acc = acc := by
  intro ps
  induction ps with
  | nil => intro acc _; rfl
  | cons p0 rest ih =>
    intro acc h
    have hstep : linkStep E acc p0 = acc := by
      unfold linkStep
      rw [if_pos (h p0 (List.mem_cons_self p0 rest))]
    rw [List.foldl_cons, hstep]
    exact ih acc (fun p hp => h p (List.mem_cons_of_mem p0 hp))

/-- Re-applying an already-applied batch of link records changes nothing: every
derived link id is by then in the snapshot, so every record is skipped. -/
theorem applyIncrementalLinks_idem (L : List StoreLink) (lrecs : List LinkRec) :
    applyIncrementalLinks (applyIncrementalLinks L lrecs) lrecs =
      applyIncrementalLinks L lrecs := by
  show (lrecs.map processLink).foldl
      (linkStep ((applyIncrementalLinks L lrecs).map (fun l => l.id)))
      (applyIncrementalLinks L lrecs) = applyIncrementalLinks L lrecs
  apply linkfold_all_skip
  intro p hp
  exact linkfold_mem_ids (L.map (fun l => l.id)) (lrecs.map processLink) L
    (fun s hs => hs) p hp

theorem types_preprocessNodes (info : ExpansionInfo) (recs : List NodeRec) :
    (preprocessNodes info recs).map (fun r => r.type) =
      recs.map (fun r => r.type) := by
  unfold preprocessNodes
  split
  · rfl
  · rw [List.map_map]
    refine List.map_congr_left (fun r _ => ?_)
    simp only [Function.comp]
    split <;> rfl

theorem htype_preprocessNodes (info : ExpansionInfo) (recs : List NodeRec)
    (h : ∀ r ∈ recs, r.type ≠ some "") :
    ∀ r ∈ preprocessNodes info recs, r.type ≠ some "" := by
  intro r hr
  have hmem : r.type ∈ (preprocessNodes info recs).map (fun r2 => r2.type) :=
    List.mem_map.mpr ⟨r, hr, rfl⟩
  rw [types_preprocessNodes] at hmem
  obtain ⟨r2, hr2, heq⟩ := List.mem_map.mp hmem
  rw [← heq]
  exact h r2 hr2

theorem nodup_preprocessNodes (info : ExpansionInfo) (recs : List NodeRec)
    (h : (recs.map (fun r => r.id)).Nodup) :
    ((preprocessNodes info recs).map (fun r => r.id)).Nodup := by
  rw [ids_preprocessNodes]
  exact h

/-- C1 counterexample: a batch whose two node records share the id `a` is not
idempotent under `updateGraph` — the second application merges both records
into the first stored copy, changing its name from the last-written value back
and forth. -/
theorem claim_C1_counterexample :
    updateGraph iplace "" (updateGraph iplace "" (Store.empty Int) batchDupIds)
        batchDupIds ≠
      updateGraph iplace "" (Store.empty Int) batchDupIds := by
  decide

/-- C1 (amended): applying the same incremental batch twice through
`updateGraph` yields exactly the same store as applying it once — equal node
lists (ids, attributes and positions) and equal link lists — provided the
batch's node records carry pairwise-distinct ids and no record carries an
empty-string `type` field. -/
theorem claim_C1_merge_idempotence (place : Nat → Nat → α × α) (entity : String)
    (store : Store α) (data : Batch)
    (hnodup : (((data.nodes).getD []).map (fun r => r.id)).Nodup)
    (htype : ∀ r ∈ (data.nodes).getD [], r.type ≠ some "") :
    updateGraph place entity (updateGraph place entity store data) data =
      updateGraph place entity store data := by
  obtain ⟨dn, dl, dei⟩ := data
  have hlinks : (updateGraph place entity
      (updateGraph place entity store ⟨dn, dl, dei⟩) ⟨dn, dl, dei⟩).links =
      (updateGraph place entity store ⟨dn, dl, dei⟩).links := by
    cases dl with
    | none => rfl
    | some lrecs => exact applyIncrementalLinks_idem store.links lrecs
  have hnodes : (updateGraph place entity
      (updateGraph place entity store ⟨dn, dl, dei⟩) ⟨dn, dl, dei⟩).nodes =
      (updateGraph place entity store ⟨dn, dl, dei⟩).nodes := by
    cases dn with
    | none =>
      cases dei with
      | none =>
        show ensureInitial entity (ensureInitial entity store.nodes) =
          ensureInitial entity store.nodes
        exact ensureInitial_idem entity store.nodes
      | some info =>
        show ensureInitial entity (ensureInitial entity (ensureInitial entity
            (ensureInitial entity store.nodes))) =
          ensureInitial entity (ensureInitial entity store.nodes)
        rw [ensureInitial_idem entity
            (ensureInitial entity (ensureInitial entity store.nodes)),
          ensureInitial_idem entity (ensureInitial entity store.nodes)]
    | some recs =>
      have hnd : (recs.map (fun r => r.id)).Nodup := hnodup
      have hty : ∀ r ∈ recs, r.type ≠ some "" := htype
      cases dei with
      | none =>
        show ensureInitial entity (applyIncrementalNodes place
            (ensureInitial entity (applyIncrementalNodes place store.nodes recs))
            recs) =
          ensureInitial entity (applyIncrementalNodes place store.nodes recs)
        exact apply_heal_apply place entity store.nodes recs hnd hty
      | some info =>
        show ensureInitial entity (applyIncrementalNodes place
            (ensureInitial entity (ensureInitial entity
              (applyIncrementalNodes place (ensureInitial entity store.nodes)
                (preprocessNodes info recs))))
            (preprocessNodes info recs)) =
          ensureInitial entity (applyIncrementalNodes place
            (ensureInitial entity store.nodes) (preprocessNodes info recs))
        rw [ensureInitial_idem entity (applyIncrementalNodes place
          (ensureInitial entity store.nodes) (preprocessNodes info recs))]
        exact apply_heal_apply place entity (ensureInitial entity store.nodes)
          (preprocessNodes info recs) (nodup_preprocessNodes info recs hnd)
          (htype_preprocessNodes info recs hty)
  have h2 : updateGraph place entity
      (updateGraph place entity store ⟨dn, dl, dei⟩) ⟨dn, dl, dei⟩ =
      Store.mk (updateGraph place entity
          (updateGraph place entity store ⟨dn, dl, dei⟩) ⟨dn, dl, dei⟩).nodes
        (updateGraph place entity
          (updateGraph place entity store ⟨dn, dl, dei⟩) ⟨dn, dl, dei⟩).links :=
    rfl
  rw [h2, hnodes, hlinks]

/-- Witness for C1 at a concrete batch: one node record with id `a` and a
self-loop link record; both hypotheses hold and the double application equals
the single one. -/
theorem claim_C1_merge_idempotence_witness :
    ((((batchSelfLoop.nodes).getD []).map (fun r => r.id)).Nodup ∧
      ∀ r ∈ (batchSelfLoop.nodes).getD [], r.type ≠ some "") ∧
    updateGraph iplace "e" (updateGraph iplace "e" (Store.empty Int)
        batchSelfLoop) batchSelfLoop =
      updateGraph iplace "e" (Store.empty Int) batchSelfLoop :=
  ⟨⟨by decide, by decide⟩,
    claim_C1_merge_idempotence iplace "e" (Store.empty Int) batchSelfLoop
      (by decide) (by decide)⟩

end KG
